import Mathlib

/-!
# Ethernet test-traffic generator: frame/CRC codec and trace assembler

A shallow embedding of `First_Milestone/generate_packets_functions_with CRC.cpp`.

* `std::string` is `String`; the character-level work is done on its `data : List Char`.
* `int` values are `Int`; every `int` arithmetic result is reduced with `wrap32`
  (two's complement, 32 bits).  `uint32_t` values are `Nat` below `2 ^ 32`.
* A C++ exception or trap is an `Except.error`.
* The output file is the list of lines written to it, in order.
-/

namespace EthGen

/-! ## Abnormal termination -/

/-- The ways in which the program stops without completing. -/
inductive Error where
  /-- The exception std::invalid_argument, thrown by std::stoi when no digit can be read. -/
  | invalidArgument
  /-- The exception std::out_of_range, thrown by std::stoi when the value does not fit an int. -/
  | outOfRange
  /-- The exception std::length_error, thrown by the fill constructor of std::string. -/
  | lengthError
  /-- An integer division trap: division by zero, or INT_MIN / -1. -/
  | arithmeticTrap
  /-- A loop that never exits. -/
  | nonTermination
  deriving DecidableEq

/-- Equality of outcomes can be decided when equality of errors and of results can. -/
instance instDecidableEqExcept {ε α : Type} [DecidableEq ε] [DecidableEq α] :
    DecidableEq (Except ε α)
  | .ok a, .ok b =>
    if h : a = b then isTrue (by rw [h]) else isFalse (fun h2 => h (by cases h2; rfl))
  | .error a, .error b =>
    if h : a = b then isTrue (by rw [h]) else isFalse (fun h2 => h (by cases h2; rfl))
  | .ok _, .error _ => isFalse (fun h => by cases h)
  | .error _, .ok _ => isFalse (fun h => by cases h)

/-! ## Machine integers -/

/-- The value of an `int` expression whose mathematical result is `x`: two's complement on 32 bits. -/
def wrap32 (x : Int) : Int := (x + 2 ^ 31) % 2 ^ 32 - 2 ^ 31

/-- The values an `int` can hold. -/
def IsInt32 (x : Int) : Prop := -2 ^ 31 ≤ x ∧ x < 2 ^ 31

instance (x : Int) : Decidable (IsInt32 x) := by unfold IsInt32; infer_instance

/-- Conversion of an `int` to `uint8_t`. -/
def toUInt8 (x : Int) : Nat := (x % 256).toNat

/-! ## `std::stoi(str, nullptr, 16)` -/

/-- The characters `isspace` accepts in the C locale: space, and the controls 9 to 13. -/
def isSpace (c : Char) : Bool := c.toNat = 32 || (9 ≤ c.toNat && c.toNat ≤ 13)

/-- The value of a character as a digit in base 16, as `strtol` reads it. -/
def digitValue16 (c : Char) : Option Nat :=
  if 48 ≤ c.toNat ∧ c.toNat ≤ 57 then some (c.toNat - 48)
  else if 97 ≤ c.toNat ∧ c.toNat ≤ 102 then some (c.toNat - 97 + 10)
  else if 65 ≤ c.toNat ∧ c.toNat ≤ 70 then some (c.toNat - 65 + 10)
  else none

/-- The digit values of the longest prefix made of base-16 digits. -/
def leadingDigits16 : List Char → List Nat
  | [] => []
  | c :: cs =>
    match digitValue16 c with
    | some d => d :: leadingDigits16 cs
    | none => []

/-- True when the text starts with `0x` or `0X` followed by a base-16 digit. -/
def hasHexPrefix : List Char → Bool
  | z :: x :: d :: _ => z.toNat = 48 && (x.toNat = 120 || x.toNat = 88) && (digitValue16 d).isSome
  | _ => false

/-- The function `std::stoi(str, nullptr, 16)`: skip white space, read an optional sign, an
optional `0x` prefix and the longest run of base-16 digits.  No digit: `invalid_argument`; a value
outside `int`: `out_of_range`. -/
def stoi (str : List Char) : Except Error Int :=
  let s1 := str.dropWhile isSpace
  let neg : Bool := s1.head? = some '-'
  let s2 := if s1.head? = some '-' ∨ s1.head? = some '+' then s1.tail else s1
  let s3 := if hasHexPrefix s2 then s2.drop 2 else s2
  let ds := leadingDigits16 s3
  if ds = [] then .error .invalidArgument
  else
    let mag : Int := (ds.foldl (fun acc d => 16 * acc + d) 0 : Nat)
    let v : Int := if neg then -mag else mag
    if v < -2 ^ 31 ∨ 2 ^ 31 ≤ v then .error .outOfRange else .ok v

/-! ## `calculateCRC32` -/

/-- One pass of the loop over `j`: the register is shifted right by one bit, and the polynomial
constant is XORed in when the bit shifted out was set. -/
def crcShift (crc : Nat) : Nat :=
  if crc &&& 1 ≠ 0 then (crc >>> 1) ^^^ 0xEDB88320 else crc >>> 1

/-- The body of the loop over `i` once the byte is read: `crc ^= byte`, then eight shifts. -/
def crcByte (crc : Nat) (byte : Nat) : Nat :=
  crcShift^[8] (crc ^^^ byte)

/-- The loop `for (i = 0; i < segment.length(); i += 2)` over what is left of the segment from
index `i` on: `segment.substr(i, 2)` is the next two characters, or the last one alone. -/
def crcSegment : Nat → List Char → Except Error Nat
  | crc, [] => .ok crc
  | crc, [a] => do
    let v ← stoi [a]
    pure (crcByte crc (toUInt8 v))
  | crc, a :: b :: rest => do
    let v ← stoi [a, b]
    crcSegment (crcByte crc (toUInt8 v)) rest

/-- The loop over the segments of the packet. -/
def crcSegments : Nat → List String → Except Error Nat
  | crc, [] => .ok crc
  | crc, segment :: rest => do
    let crc ← crcSegment crc segment.data
    crcSegments crc rest

/-- The function `calculateCRC32`. -/
def calculateCRC32 (packet : List String) : Except Error Nat := do
  let crc ← crcSegments 0xFFFFFFFF packet
  pure (crc ^^^ 0xFFFFFFFF)

/-! ## `generatePacket` -/

/-- The record `EthernetConfig`. -/
structure EthernetConfig where
  /-- Line rate in Gbps. -/
  lineRate : Int
  /-- Capture duration in milliseconds. -/
  captureSizeMs : Int
  /-- Minimum number of IFGs per packet. -/
  minNumOfIFGs : Int
  /-- Destination MAC address. -/
  destAddress : String
  /-- Source MAC address. -/
  srcAddress : String
  /-- Packet size in bytes. -/
  maxPacketSize : Int
  /-- Number of packets per burst. -/
  burstSize : Int
  /-- Burst periodicity in microseconds. -/
  burstPeriodicity : Int

/-- The constructor call `string(n, c)` with `n` an `int`.  The count is converted to `size_t`:
a negative `n` becomes at least `2 ^ 64 - 2 ^ 31`, more than `max_size()`, and the constructor
throws `std::length_error`; otherwise the string is `n` copies of `c`. -/
def stringFill (n : Int) (c : Char) : Except Error String :=
  if n < 0 then .error .lengthError else .ok ⟨List.replicate n.toNat c⟩

/-- What `setw(w) << setfill(c)` does to the text of the next output: pad on the left up to
width `w`. -/
def padLeft (w : Nat) (c : Char) (l : List Char) : List Char :=
  List.replicate (w - l.length) c ++ l

/-- The text `crcHex.str()` after `crcHex << hex << setw(8) << setfill('0') << crc`: the digits
of `crc` in base 16, lower case, padded on the left with `0` to 8 characters. -/
def crcHexStr (crc : Nat) : String :=
  ⟨padLeft 8 '0' (Nat.toDigits 16 crc)⟩

/-- The function `generatePacket`. -/
def generatePacket (config : EthernetConfig) : Except Error (List String) := do
  let packet := ["FB555555555555D5", config.destAddress, config.srcAddress, "0800"]
  let payloadSize := wrap32 (config.maxPacketSize - (8 + 6 + 6 + 2 + 4))
  let payload ← stringFill (wrap32 (payloadSize * 2)) '0'
  let packet := packet ++ [payload]
  let crc ← calculateCRC32 packet
  pure (packet ++ [crcHexStr crc])

/-! ## IEEE 754 arithmetic

A finite floating-point value is the rational number it denotes, and an operation returns the
exact result rounded to the nearest value of the format, ties to even.  The exponent range is not
modelled: with `int` operands every finite nonzero value this program computes lies between
`2 ^ (-200)` and `2 ^ 200` in magnitude, far inside the normal range of both formats.  Zero stands
for `+0.0`; the only divisor that can be zero is `lineRate * pow(10, 9)`, which is `+0.0` then. -/

/-- The nearest integer, a tie going to the even one. -/
def roundHalfEven (x : ℚ) : Int :=
  if x - ⌊x⌋ < 1 / 2 then ⌊x⌋
  else if 1 / 2 < x - ⌊x⌋ then ⌊x⌋ + 1
  else if ⌊x⌋ % 2 = 0 then ⌊x⌋ else ⌊x⌋ + 1

/-- Halving `n` until it is below 2, counting the halvings; `fuel` bounds their number. -/
def log2Fuel : Nat → Nat → Nat
  | 0, _ => 0
  | fuel + 1, n => if 2 ≤ n then log2Fuel fuel (n / 2) + 1 else 0

/-- The position of the highest set bit of a positive `n`. -/
def ilog2 (n : Nat) : Nat := log2Fuel n n

/-- The exponent `b` of the binade of a nonzero `x`: `2 ^ b ≤ |x| < 2 ^ (b + 1)`. -/
def binade (x : ℚ) : Int :=
  let t : Int := (ilog2 x.num.natAbs : Int) - (ilog2 x.den : Int)
  if (2 : ℚ) ^ t ≤ |x| then t else t - 1

/-- Rounding to a significand of `p` bits, nearest, ties to even. -/
def roundTo (p : Nat) (x : ℚ) : ℚ :=
  if x = 0 then 0
  else (roundHalfEven (x / 2 ^ (binade x - ((p : Int) - 1))) : ℚ) * 2 ^ (binade x - ((p : Int) - 1))

/-- A value of type `double`. -/
inductive Fp where
  /-- A finite value. -/
  | fin (q : ℚ)
  /-- An infinity, negative when the flag is set. -/
  | inf (negative : Bool)
  /-- Not a number. -/
  | nan
  deriving DecidableEq

namespace Fp

/-- Conversion of an `int` to `double`, exact. -/
def ofInt (i : Int) : Fp := fin i

/-- Multiplication of two `double` values. -/
def mul : Fp → Fp → Fp
  | fin a, fin b => fin (roundTo 53 (a * b))
  | fin a, inf s => if a = 0 then nan else inf (xor s (decide (a < 0)))
  | inf s, fin b => if b = 0 then nan else inf (xor s (decide (b < 0)))
  | inf s, inf t => inf (xor s t)
  | _, _ => nan

/-- Division of two `double` values. -/
def div : Fp → Fp → Fp
  | fin a, fin b =>
    if b = 0 then (if a = 0 then nan else inf (decide (a < 0))) else fin (roundTo 53 (a / b))
  | fin _, inf _ => fin 0
  | inf s, fin b => inf (xor s (decide (b < 0)))
  | _, _ => nan

/-- Subtraction of two `double` values. -/
def sub : Fp → Fp → Fp
  | fin a, fin b => fin (roundTo 53 (a - b))
  | fin _, inf s => inf (!s)
  | inf s, fin _ => inf s
  | inf s, inf t => if s = t then nan else inf s
  | _, _ => nan

/-- The function `ceil`. -/
def ceil : Fp → Fp
  | fin a => fin ⌈a⌉
  | x => x

/-- The conversion `static_cast<int>`: truncation toward zero.  A value outside `int`, an infinity
or a NaN gives `INT_MIN`, the result of the x86-64 conversion instruction. -/
def toInt : Fp → Int
  | fin a =>
    let t : Int := if 0 ≤ a then ⌊a⌋ else ⌈a⌉
    if -2 ^ 31 ≤ t ∧ t < 2 ^ 31 then t else -2 ^ 31
  | _ => -2 ^ 31

end Fp

/-- Conversion of a finite `double` or of an `int` to `float`. -/
def toFloat (x : ℚ) : ℚ := roundTo 24 x

/-! ## `calculatePacketTime` and `writePacketsToFile` -/

/-- The function `calculatePacketTime`; `pow(10, 9)` is exactly `1e9`. -/
def calculatePacketTime (config : EthernetConfig) : Fp :=
  let packetSizeBytes := config.maxPacketSize
  Fp.div (Fp.mul (Fp.ofInt packetSizeBytes) (Fp.fin 8))
    (Fp.mul (Fp.ofInt config.lineRate) (Fp.fin (10 ^ 9)))

/-- Division of two `int` values: truncation toward zero; a zero divisor and `INT_MIN / -1`
trap. -/
def intDiv (a b : Int) : Except Error Int :=
  if b = 0 ∨ (a = -2 ^ 31 ∧ b = -1) then .error .arithmeticTrap else .ok (Int.tdiv a b)

/-- The number of passes a loop is followed for: a loop counter of type `int` starting at 0 and
incremented once per pass cannot make more passes without overflowing. -/
def loopFuel : Nat := 2 ^ 31

/-- A loop `for (int i = start; cond(i); ++i) body`, the body acting on the state `st`; it gives
up with `nonTermination` when the fuel runs out. -/
def forLoop {σ : Type} (cond : Int → Bool) (body : σ → Except Error σ) :
    Nat → Int → σ → Except Error σ
  | 0, _, _ => .error .nonTermination
  | fuel + 1, i, st =>
    if cond i then do
      let st ← body st
      forLoop cond body fuel (wrap32 (i + 1)) st
    else .ok st

/-- The statement `outputFile << line << endl`. -/
def writeLine (file : List String) (line : List Char) : List String :=
  file ++ [⟨line⟩]

/-- The loop `while (!segmentData.empty())` of the serializer, from the state made of the line
buffer, what is left of the segment and the file. -/
def rechunkWhile : Nat → List Char → List Char → List String →
    Except Error (List Char × List String)
  | 0, _, _, _ => .error .nonTermination
  | fuel + 1, currentLine, segmentData, file =>
    if segmentData.isEmpty then .ok (currentLine, file)
    else
      let toTake := min (8 - currentLine.length) segmentData.length
      let taken : List Char × List Char :=
        if currentLine.length < 8 then
          (currentLine ++ segmentData.take toTake, segmentData.drop toTake)
        else (currentLine, segmentData)
      if taken.1.length = 8 then
        rechunkWhile fuel [] taken.2 (writeLine file taken.1)
      else
        rechunkWhile fuel taken.1 taken.2 file

/-- The loop `for (const auto& segment : packet)` of the serializer.  A pass of the inner loop
that moves no character leaves its state unchanged, so the inner loop either ends within as many
passes as the segment has characters or never ends. -/
def rechunkSegments : List Char → List String → List String →
    Except Error (List Char × List String)
  | currentLine, [], file => .ok (currentLine, file)
  | currentLine, segment :: rest, file => do
    let st ← rechunkWhile (segment.length + 1) currentLine segment.data file
    rechunkSegments st.1 rest st.2

/-- The lines 131 to 153: one packet is cut into lines of 8 characters, and what is left in the
buffer is written as a last, shorter line. -/
def writePacket (packet : List String) (file : List String) : Except Error (List String) := do
  let st ← rechunkSegments [] packet file
  if st.1.isEmpty then pure st.2 else pure (writeLine st.2 st.1)

/-- The loop of lines 158 to 160: the counter is converted to `float` and compared with
`float(config.minNumOfIFGs / 4.0)`. -/
def writeIFGs (config : EthernetConfig) (file : List String) : Except Error (List String) :=
  forLoop
    (fun ifg => decide (toFloat ifg < toFloat (roundTo 53 ((config.minNumOfIFGs : ℚ) / 4))))
    (fun file => pure (file ++ ["07070707"])) loopFuel 0 file

/-- The value of `ifgsNeeded` on line 167. -/
def ifgsNeeded (config : EthernetConfig) : Int :=
  let packetTime := calculatePacketTime config
  let totalBurstTime := Fp.mul packetTime (Fp.ofInt config.burstSize)
  let remainingTime := Fp.sub (Fp.ofInt config.burstPeriodicity) totalBurstTime
  Fp.toInt (Fp.ceil (Fp.div
    (Fp.mul (Fp.mul remainingTime (Fp.ofInt config.lineRate)) (Fp.fin (10 ^ 3))) (Fp.fin 32)))

/-- The body of the loop over `pkt`: one packet, then its inter-frame gap.  The state is the file
and `packetCount`. -/
def writeOnePacket (config : EthernetConfig) (st : List String × Int) :
    Except Error (List String × Int) := do
  let packet ← generatePacket config
  let file ← writePacket packet st.1
  let packetCount := wrap32 (st.2 + 1)
  let file ← writeIFGs config file
  pure (file, packetCount)

/-- The body of the loop over `burst`: the packets of the burst, then the gap up to the end of
the burst period. -/
def writeOneBurst (config : EthernetConfig) (st : List String × Int) :
    Except Error (List String × Int) := do
  let st ← forLoop (fun pkt => decide (pkt < config.burstSize)) (writeOnePacket config)
    loopFuel 0 st
  let file ← forLoop (fun i => decide (i < ifgsNeeded config))
    (fun file => pure (file ++ ["07070707"])) loopFuel 0 st.1
  pure (file, st.2)

/-- The function `writePacketsToFile` when the output file opens: the lines written to the file,
in order, and the packet count printed at the end. -/
def writePacketsToFile (config : EthernetConfig) : Except Error (List String × Int) := do
  let totalBursts ← intDiv (wrap32 (config.captureSizeMs * 1000)) config.burstPeriodicity
  forLoop (fun burst => decide (burst < totalBursts)) (writeOneBurst config) loopFuel 0 ([], 0)

/-! ## The quantities the trace is described with -/

/-- The number of passes of a loop `for (int i = start; cond(i); ++i)`, if it ends within the
fuel. -/
def loopCount (cond : Int → Bool) : Nat → Int → Option Nat
  | 0, _ => none
  | fuel + 1, i =>
    if cond i then (loopCount cond fuel (wrap32 (i + 1))).map (· + 1) else some 0

/-- The number of passes of the inter-frame gap loop of lines 158 to 160. -/
def interFrameFillerWords (config : EthernetConfig) : Option Nat :=
  loopCount
    (fun ifg => decide (toFloat ifg < toFloat (roundTo 53 ((config.minNumOfIFGs : ℚ) / 4))))
    loopFuel 0

/-- The number of passes of the end-of-burst gap loop of lines 168 to 170. -/
def endOfBurstFillerWords (config : EthernetConfig) : Nat := (ifgsNeeded config).toNat

/-- The value of `totalBursts` on line 118. -/
def totalBursts (config : EthernetConfig) : Except Error Int :=
  intDiv (wrap32 (config.captureSizeMs * 1000)) config.burstPeriodicity

/-- The number of passes of the loop over `burst` of line 127. -/
def burstsEmitted (config : EthernetConfig) : Except Error Nat := do
  let bursts ← totalBursts config
  match loopCount (fun burst => decide (burst < bursts)) loopFuel 0 with
  | some k => pure k
  | none => .error .nonTermination

/-- The end-of-burst filler count as the specification computes it, in exact arithmetic:
perFrameTimeUs = maxPacketSize * 8 / (lineRate * 1000), remainingTimeUs = burstPeriodicity -
burstSize * perFrameTimeUs, remainingBits = remainingTimeUs * lineRate * 1000, and the count is
ceil(remainingBits / 32), clamped to at least 0. -/
def specEndOfBurstFillerWords (config : EthernetConfig) : Int :=
  let perFrameTimeUs : ℚ := (config.maxPacketSize : ℚ) * 8 / ((config.lineRate : ℚ) * 1000)
  let remainingTimeUs : ℚ := (config.burstPeriodicity : ℚ) - (config.burstSize : ℚ) * perFrameTimeUs
  let remainingBits : ℚ := remainingTimeUs * (config.lineRate : ℚ) * 1000
  max 0 ⌈remainingBits / 32⌉

/-- A text cut into words of 8 characters, the last one shorter when the length is not a multiple
of 8. -/
def chunk8 : Nat → List Char → List String
  | 0, _ => []
  | fuel + 1, l => if l.isEmpty then [] else ⟨l.take 8⟩ :: chunk8 fuel (l.drop 8)

/-- The trace words of a frame: its fields put end to end and cut into words of 8 hex digits. -/
def frameWords (packet : List String) : List String :=
  chunk8 (packet.flatMap String.data).length (packet.flatMap String.data)

/-- The lines of one burst: `framesPerBurst` times the frame words followed by the inter-frame
filler words, then the end-of-burst filler words. -/
def burstLines (words : List String) (framesPerBurst interFrame endOfBurst : Nat) : List String :=
  (List.replicate framesPerBurst (words ++ List.replicate interFrame "07070707")).flatten ++
    List.replicate endOfBurst "07070707"

/-- The lines of a trace: the lines of a burst, once per burst. -/
def traceLines (bursts : Nat) (words : List String) (framesPerBurst interFrame endOfBurst : Nat) :
    List String :=
  (List.replicate bursts (burstLines words framesPerBurst interFrame endOfBurst)).flatten

/-- The profile of the end-to-end scenario, with the packet size left open. -/
def sampleConfig (maxPacketSize : Int) : EthernetConfig where
  lineRate := 10
  captureSizeMs := 1
  minNumOfIFGs := 12
  destAddress := "AABBCCDDEEFF"
  srcAddress := "112233445566"
  maxPacketSize := maxPacketSize
  burstSize := 1
  burstPeriodicity := 1000

/-! ## The CRC-32 of an octet sequence, as the specification words it -/

/-- A hex digit: one of the 22 characters `0`-`9`, `a`-`f`, `A`-`F`. -/
def isHexDigit (c : Char) : Bool := "0123456789abcdefABCDEF".data.contains c

/-- The value of a hex digit: its position among `0123456789abcdef`, letter case ignored. -/
def hexDigitValue (c : Char) : Nat := "0123456789abcdef".data.indexOf c.toLower

/-- The octets a hex text denotes, two digits each, most significant digit first. -/
def decodeOctets : List Char → List Nat
  | a :: b :: rest => (16 * hexDigitValue a + hexDigitValue b) :: decodeOctets rest
  | _ => []

/-- The register after one bit: shift right by one, and XOR with the polynomial constant when the
low bit was set. -/
def specBit (reg : Nat) : Nat :=
  if reg % 2 = 1 then (reg / 2) ^^^ 0xEDB88320 else reg / 2

/-- The register after one octet: XOR it into the low byte, then eight single-bit steps. -/
def specOctet (reg octet : Nat) : Nat :=
  (List.range 8).foldl (fun r _ => specBit r) (reg ^^^ octet)

/-- The bit-reflected CRC-32: initial register 0xFFFFFFFF, polynomial 0xEDB88320, final XOR
0xFFFFFFFF. -/
def crc32 (octets : List Nat) : Nat :=
  (octets.foldl specOctet 0xFFFFFFFF) ^^^ 0xFFFFFFFF

/-- The number a text of hex digits denotes, most significant digit first. -/
def hexValue (l : List Char) : Nat :=
  l.foldl (fun acc c => 16 * acc + hexDigitValue c) 0

/-- A MAC address as the profile carries it: exactly 12 hex digits. -/
def IsMac (s : String) : Prop := s.length = 12 ∧ ∀ c ∈ s.data, isHexDigit c = true

instance (s : String) : Decidable (IsMac s) := by unfold IsMac; infer_instance

/-- The octets a list of fields decodes to, field after field. -/
def fieldOctets (fields : List String) : List Nat :=
  fields.flatMap (fun s => decodeOctets s.data)

/-- The fields generatePacket emits ahead of the CRC when the payload has `n` hex digits:
preamble and SFD, destination MAC, source MAC, EtherType, payload of zeros. -/
def frameBody (config : EthernetConfig) (n : Nat) : List String :=
  ["FB555555555555D5", config.destAddress, config.srcAddress, "0800", ⟨List.replicate n '0'⟩]

/-- A text made of an even number of hex digits. -/
def IsHexText (s : String) : Prop := s.length % 2 = 0 ∧ ∀ c ∈ s.data, isHexDigit c = true

instance (s : String) : Decidable (IsHexText s) := by unfold IsHexText; infer_instance

/-! ## Further quantities the claims are stated with -/

/-- The per-frame transmission time in microseconds as the specification computes it, in exact
arithmetic: bits divided by bits per microsecond, maxPacketSize * 8 / (lineRate * 1000). -/
def specPerFrameTimeUs (config : EthernetConfig) : ℚ :=
  (config.maxPacketSize : ℚ) * 8 / ((config.lineRate : ℚ) * 1000)

/-- The value of `remainingTime` on line 164. -/
def remainingTime (config : EthernetConfig) : Fp :=
  Fp.sub (Fp.ofInt config.burstPeriodicity)
    (Fp.mul (calculatePacketTime config) (Fp.ofInt config.burstSize))

/-- A `double` that compares below zero. -/
def Fp.IsNegative : Fp → Prop
  | .fin q => q < 0
  | .inf s => s = true
  | .nan => False

instance (x : Fp) : Decidable x.IsNegative := by
  cases x <;> unfold Fp.IsNegative <;> infer_instance

/-- One pass of the body of the loop `while (!segmentData.empty())`, lines 137 to 146: the new
line buffer, what is left of the segment, and the file. -/
def rechunkStep (currentLine segmentData : List Char) (file : List String) :
    List Char × List Char × List String :=
  let toTake := min (8 - currentLine.length) segmentData.length
  let taken : List Char × List Char :=
    if currentLine.length < 8 then
      (currentLine ++ segmentData.take toTake, segmentData.drop toTake)
    else (currentLine, segmentData)
  if taken.1.length = 8 then ([], taken.2, writeLine file taken.1)
  else (taken.1, taken.2, file)

/-- A character with which `std::stoi` cannot start reading a number in base 16: not a hex digit,
not white space, not a sign. -/
def StartsNoNumber (c : Char) : Prop :=
  isHexDigit c = false ∧ isSpace c = false ∧ c ≠ '-' ∧ c ≠ '+'

/-- The octet-wise XOR of two octet sequences. -/
def xorOctets (a b : List Nat) : List Nat := List.zipWith (· ^^^ ·) a b

/-! ## Facts about `calculateCRC32` -/

theorem isHexDigit_iff_mem (c : Char) :
    isHexDigit c = true ↔ c ∈ "0123456789abcdefABCDEF".data := by
  simp [isHexDigit]

theorem stoi_pair_table : ∀ a ∈ "0123456789abcdefABCDEF".data,
    ∀ b ∈ "0123456789abcdefABCDEF".data,
      stoi [a, b] = .ok ((16 * hexDigitValue a + hexDigitValue b : Nat) : Int) := by
  decide!

theorem hexDigitValue_table : ∀ a ∈ "0123456789abcdefABCDEF".data, hexDigitValue a < 16 := by
  decide!

theorem stoi_hex_pair {a b : Char} (ha : isHexDigit a = true) (hb : isHexDigit b = true) :
    stoi [a, b] = .ok ((16 * hexDigitValue a + hexDigitValue b : Nat) : Int) :=
  stoi_pair_table a ((isHexDigit_iff_mem a).1 ha) b ((isHexDigit_iff_mem b).1 hb)

theorem hexDigitValue_lt {a : Char} (ha : isHexDigit a = true) : hexDigitValue a < 16 :=
  hexDigitValue_table a ((isHexDigit_iff_mem a).1 ha)

theorem toUInt8_natCast {n : Nat} (h : n < 256) : toUInt8 (n : Int) = n := by
  unfold toUInt8
  omega

theorem crcShift_eq_specBit (r : Nat) : crcShift r = specBit r := by
  unfold crcShift specBit
  have h1 : r &&& 1 = r % 2 := Nat.and_one_is_mod r
  have h2 : r >>> 1 = r / 2 := by simp [Nat.shiftRight_eq_div_pow]
  rw [h1, h2]
  rcases Nat.mod_two_eq_zero_or_one r with h | h <;> simp [h]

theorem crcByte_eq_specOctet (r o : Nat) : crcByte r o = specOctet r o := by
  have h : crcShift = specBit := funext crcShift_eq_specBit
  unfold crcByte specOctet
  rw [h]
  rfl

/-- On an even number of hex digits the segment loop folds the decoded octets into the register. -/
theorem crcSegment_hex : ∀ (n : Nat) (l : List Char) (crc : Nat), l.length = 2 * n →
    (∀ c ∈ l, isHexDigit c = true) →
    crcSegment crc l = .ok ((decodeOctets l).foldl specOctet crc) := by
  intro n
  induction n with
  | zero =>
    intro l crc hl _
    have : l = [] := List.length_eq_zero.mp (by omega)
    subst this
    rfl
  | succ n ih =>
    intro l crc hl hc
    match l, hl, hc with
    | a :: b :: rest, hl, hc =>
      have ha : isHexDigit a = true := hc a (by simp)
      have hb : isHexDigit b = true := hc b (by simp)
      have hlt : 16 * hexDigitValue a + hexDigitValue b < 256 := by
        have := hexDigitValue_lt ha
        have := hexDigitValue_lt hb
        omega
      have hrest : rest.length = 2 * n := by simp at hl; omega
      have hi := ih rest (specOctet crc (16 * hexDigitValue a + hexDigitValue b)) hrest
        (fun c hm => hc c (by simp [hm]))
      simp only [crcSegment, stoi_hex_pair ha hb, bind, Except.bind, toUInt8_natCast hlt, hi,
        decodeOctets, List.foldl_cons, crcByte_eq_specOctet]
    | [], hl, _ => simp at hl
    | [_], hl, _ => simp at hl; omega

theorem crcSegment_hexText (s : String) (crc : Nat) (h : IsHexText s) :
    crcSegment crc s.data = .ok ((decodeOctets s.data).foldl specOctet crc) := by
  obtain ⟨hlen, hc⟩ := h
  have hl : s.data.length = 2 * (s.data.length / 2) := by
    have : s.length = s.data.length := rfl
    omega
  exact crcSegment_hex _ s.data crc hl hc

theorem crcSegments_hex : ∀ (packet : List String) (crc : Nat), (∀ s ∈ packet, IsHexText s) →
    crcSegments crc packet =
      .ok ((packet.flatMap (fun s => decodeOctets s.data)).foldl specOctet crc) := by
  intro packet
  induction packet with
  | nil => intro crc _; rfl
  | cons s rest ih =>
    intro crc h
    have hs := crcSegment_hexText s crc (h s (by simp))
    have hr := ih ((decodeOctets s.data).foldl specOctet crc) (fun t ht => h t (by simp [ht]))
    simp only [crcSegments, hs, bind, Except.bind, hr, List.flatMap_cons, List.foldl_append]

theorem calculateCRC32_hex (packet : List String) (h : ∀ s ∈ packet, IsHexText s) :
    calculateCRC32 packet = .ok (crc32 (fieldOctets packet)) := by
  simp only [calculateCRC32, crcSegments_hex packet _ h, bind, Except.bind, crc32, pure,
    Except.pure, fieldOctets]

/-! ## Facts about the machine integers and the hex output -/

theorem wrap32_eq_self {x : Int} (h1 : -2147483648 ≤ x) (h2 : x ≤ 2147483647) :
    wrap32 x = x := by
  unfold wrap32
  omega

theorem foldl_hex_acc (l : List Char) (a : Nat) :
    l.foldl (fun acc c => 16 * acc + hexDigitValue c) a = a * 16 ^ l.length + hexValue l := by
  unfold hexValue
  induction l generalizing a with
  | nil => simp
  | cons c cs ih =>
    simp only [List.foldl_cons, List.length_cons]
    rw [ih (16 * a + hexDigitValue c), ih (16 * 0 + hexDigitValue c)]
    ring

theorem hexValue_cons (c : Char) (cs : List Char) :
    hexValue (c :: cs) = hexDigitValue c * 16 ^ cs.length + hexValue cs := by
  have h := foldl_hex_acc cs (16 * 0 + hexDigitValue c)
  simp only [Nat.mul_zero, Nat.zero_add] at h
  simpa [hexValue] using h

theorem hexValue_zeros_append (k : Nat) (l : List Char) :
    hexValue (List.replicate k '0' ++ l) = hexValue l := by
  induction k with
  | zero => simp
  | succ k ih =>
    have h0 : hexDigitValue '0' = 0 := by decide
    have hl : hexValue (List.replicate k '0' ++ l) = hexValue l := ih
    rw [List.replicate_succ, List.cons_append, hexValue_cons, h0, hl]
    simp

theorem digitChar_table : ∀ d ∈ List.range 16,
    hexDigitValue (Nat.digitChar d) = d ∧ isHexDigit (Nat.digitChar d) = true := by
  decide!

theorem digitChar_hex {d : Nat} (h : d < 16) :
    hexDigitValue (Nat.digitChar d) = d ∧ isHexDigit (Nat.digitChar d) = true :=
  digitChar_table d (List.mem_range.2 h)

theorem toDigitsCore_hexValue : ∀ (fuel n : Nat) (ds : List Char), n < fuel →
    hexValue (Nat.toDigitsCore 16 fuel n ds) = n * 16 ^ ds.length + hexValue ds := by
  intro fuel
  induction fuel with
  | zero => intro n ds h; omega
  | succ fuel ih =>
    intro n ds h
    have hd := (digitChar_hex (Nat.mod_lt n (by decide : 0 < 16))).1
    unfold Nat.toDigitsCore
    by_cases hq : n / 16 = 0
    · simp only [hq, if_true]
      rw [hexValue_cons, hd]
      have : n % 16 = n := by omega
      rw [this]
    · simp only [hq, if_false]
      rw [ih (n / 16) _ (by omega), hexValue_cons, hd, List.length_cons, pow_succ]
      have hn : n = 16 * (n / 16) + n % 16 := (Nat.div_add_mod n 16).symm
      generalize n / 16 = q at hn ⊢
      generalize n % 16 = r at hn ⊢
      subst hn
      ring

theorem toDigitsCore_isHex : ∀ (fuel n : Nat) (ds : List Char),
    (∀ c ∈ ds, isHexDigit c = true) →
    ∀ c ∈ Nat.toDigitsCore 16 fuel n ds, isHexDigit c = true := by
  intro fuel
  induction fuel with
  | zero => intro n ds h c hc; exact h c (by simpa [Nat.toDigitsCore] using hc)
  | succ fuel ih =>
    intro n ds h
    have hd := (digitChar_hex (Nat.mod_lt n (by decide : 0 < 16))).2
    have hds : ∀ c ∈ Nat.digitChar (n % 16) :: ds, isHexDigit c = true := by
      intro c hc
      rcases List.mem_cons.1 hc with rfl | hc
      · exact hd
      · exact h c hc
    unfold Nat.toDigitsCore
    by_cases hq : n / 16 = 0
    · simpa only [hq, if_true] using hds
    · simpa only [hq, if_false] using ih (n / 16) _ hds

/-- The CRC field: eight hex digits that denote the CRC. -/
theorem crcHexStr_spec {crc : Nat} (h : crc < 2 ^ 32) :
    (crcHexStr crc).length = 8 ∧ (∀ c ∈ (crcHexStr crc).data, isHexDigit c = true) ∧
    hexValue (crcHexStr crc).data = crc := by
  have hlen : (Nat.toDigits 16 crc).length ≤ 8 :=
    Nat.toDigitsCore_length 16 (by decide) (crc + 1) crc 8 (by simpa using h) (by decide)
  refine ⟨?_, ?_, ?_⟩
  · show (padLeft 8 '0' (Nat.toDigits 16 crc)).length = 8
    simp only [padLeft, List.length_append, List.length_replicate]
    omega
  · intro c hc
    have hc2 : c ∈ List.replicate (8 - (Nat.toDigits 16 crc).length) '0' ++ Nat.toDigits 16 crc :=
      hc
    rcases List.mem_append.1 hc2 with hz | hd
    · rw [List.eq_of_mem_replicate hz]; decide
    · exact toDigitsCore_isHex _ _ [] (by simp) c hd
  · show hexValue (padLeft 8 '0' (Nat.toDigits 16 crc)) = crc
    rw [padLeft, hexValue_zeros_append]
    have := toDigitsCore_hexValue (crc + 1) crc [] (by omega)
    simpa [Nat.toDigits, hexValue] using this

/-! ## Facts about `generatePacket` -/

theorem specBit_lt {r : Nat} (h : r < 2 ^ 32) : specBit r < 2 ^ 32 := by
  unfold specBit
  have h2 : r / 2 < 2 ^ 32 := by omega
  split
  · exact Nat.xor_lt_two_pow h2 (by decide)
  · exact h2

theorem foldl_specBit_lt (l : List Nat) {r : Nat} (h : r < 2 ^ 32) :
    l.foldl (fun r _ => specBit r) r < 2 ^ 32 := by
  induction l generalizing r with
  | nil => exact h
  | cons _ _ ih => exact ih (specBit_lt h)

theorem specOctet_lt {r o : Nat} (hr : r < 2 ^ 32) (ho : o < 256) : specOctet r o < 2 ^ 32 :=
  foldl_specBit_lt _ (Nat.xor_lt_two_pow hr (by omega))

theorem foldl_specOctet_lt (l : List Nat) (hl : ∀ o ∈ l, o < 256) {r : Nat} (h : r < 2 ^ 32) :
    l.foldl specOctet r < 2 ^ 32 := by
  induction l generalizing r with
  | nil => exact h
  | cons o os ih =>
    exact ih (fun x hx => hl x (by simp [hx])) (specOctet_lt h (hl o (by simp)))

theorem crc32_lt (l : List Nat) (hl : ∀ o ∈ l, o < 256) : crc32 l < 2 ^ 32 :=
  Nat.xor_lt_two_pow (foldl_specOctet_lt l hl (by decide)) (by decide)

theorem decodeOctets_lt : ∀ (l : List Char), (∀ c ∈ l, isHexDigit c = true) →
    ∀ o ∈ decodeOctets l, o < 256
  | [], _, o, ho => by simp [decodeOctets] at ho
  | [_], _, o, ho => by simp [decodeOctets] at ho
  | a :: b :: rest, h, o, ho => by
    simp only [decodeOctets, List.mem_cons] at ho
    rcases ho with rfl | ho
    · have := hexDigitValue_lt (h a (by simp))
      have := hexDigitValue_lt (h b (by simp))
      omega
    · exact decodeOctets_lt rest (fun c hc => h c (by simp [hc])) o ho

theorem decodeOctets_length : ∀ (l : List Char), (decodeOctets l).length = l.length / 2
  | [] => rfl
  | [_] => by simp [decodeOctets]
  | _ :: _ :: rest => by
    simp only [decodeOctets, List.length_cons, decodeOctets_length rest]
    omega

theorem fieldOctets_lt (fields : List String) (h : ∀ s ∈ fields, IsHexText s) :
    ∀ o ∈ fieldOctets fields, o < 256 := by
  intro o ho
  obtain ⟨s, hs, hos⟩ := List.mem_flatMap.1 ho
  exact decodeOctets_lt s.data (h s hs).2 o hos

theorem isHexText_of_isMac {s : String} (h : IsMac s) : IsHexText s :=
  ⟨by rw [h.1], h.2⟩

theorem isHexText_zeros (n : Nat) (h : n % 2 = 0) : IsHexText ⟨List.replicate n '0'⟩ := by
  refine ⟨by simpa [String.length] using h, ?_⟩
  intro c hc
  rw [List.eq_of_mem_replicate hc]
  decide

theorem frameBody_isHexText (config : EthernetConfig) (n : Nat) (hn : n % 2 = 0)
    (hd : IsHexText config.destAddress) (hs : IsHexText config.srcAddress) :
    ∀ s ∈ frameBody config n, IsHexText s := by
  intro s hm
  simp only [frameBody, List.mem_cons, List.mem_singleton, List.not_mem_nil, or_false] at hm
  rcases hm with rfl | rfl | rfl | rfl | rfl
  · decide
  · exact hd
  · exact hs
  · decide
  · exact isHexText_zeros n hn

/-- When the payload length the code computes is not negative and the addresses are hex texts,
generatePacket returns the body followed by the CRC field. -/
theorem generatePacket_of_nonneg (config : EthernetConfig) (n : Nat)
    (hn : wrap32 (wrap32 (config.maxPacketSize - (8 + 6 + 6 + 2 + 4)) * 2) = (n : Int))
    (hd : IsHexText config.destAddress) (hs : IsHexText config.srcAddress) :
    generatePacket config =
      .ok (frameBody config n ++ [crcHexStr (crc32 (fieldOctets (frameBody config n)))]) := by
  have heven : n % 2 = 0 := by
    unfold wrap32 at hn
    omega
  have hcrc := calculateCRC32_hex (frameBody config n) (frameBody_isHexText config n heven hd hs)
  have hfill : stringFill (n : Int) '0' = .ok ⟨List.replicate n '0'⟩ := by
    simp [stringFill]
  simp only [frameBody] at hcrc
  simp only [generatePacket, hn, hfill, bind, Except.bind, List.cons_append, List.nil_append,
    hcrc, pure, Except.pure, frameBody]

/-- When the payload length the code computes is negative, generatePacket throws from the string
constructor. -/
theorem generatePacket_of_neg (config : EthernetConfig)
    (hn : wrap32 (wrap32 (config.maxPacketSize - (8 + 6 + 6 + 2 + 4)) * 2) < 0) :
    generatePacket config = .error .lengthError := by
  simp only [generatePacket, stringFill, hn, if_true, bind, Except.bind]

theorem payload_digits_in_range {m : Int} (h1 : 26 ≤ m) (h2 : m ≤ 1073741849) :
    wrap32 (wrap32 (m - (8 + 6 + 6 + 2 + 4)) * 2) = ((2 * (m - 26)).toNat : Int) := by
  unfold wrap32
  omega

/-! ## Facts about the serializer -/

/-- The inner loop of the serializer ends, having written full lines only and keeping fewer than
8 characters in the buffer; no character is lost or moved. -/
theorem rechunkWhile_spec : ∀ (fuel : Nat) (cur seg : List Char) (file : List String),
    cur.length < 8 → seg.length < fuel →
    ∃ (full : List (List Char)) (rest : List Char),
      rechunkWhile fuel cur seg file = .ok (rest, file ++ full.map String.mk) ∧
      rest.length < 8 ∧ (∀ l ∈ full, l.length = 8) ∧ full.flatten ++ rest = cur ++ seg := by
  intro fuel
  induction fuel with
  | zero => intro cur seg file _ h; omega
  | succ fuel ih =>
    intro cur seg file hcur hfuel
    cases seg with
    | nil => exact ⟨[], cur, by simp [rechunkWhile], hcur, by simp, by simp⟩
    | cons c cs =>
      have ht : 1 ≤ min (8 - cur.length) (c :: cs).length := by
        simp only [List.length_cons]; omega
      generalize htk : min (8 - cur.length) (c :: cs).length = t at ht
      have htle : t ≤ (c :: cs).length := by rw [← htk]; exact Nat.min_le_right _ _
      have htle8 : t ≤ 8 - cur.length := by rw [← htk]; exact Nat.min_le_left _ _
      have hdrop : ((c :: cs).drop t).length < fuel := by
        rw [List.length_drop]; simp only [List.length_cons] at hfuel ⊢; omega
      have hlen : (cur ++ (c :: cs).take t).length = cur.length + t := by
        rw [List.length_append, List.length_take, Nat.min_eq_left htle]
      have hstep : rechunkWhile (fuel + 1) cur (c :: cs) file =
          if (cur ++ (c :: cs).take t).length = 8 then
            rechunkWhile fuel [] ((c :: cs).drop t) (writeLine file (cur ++ (c :: cs).take t))
          else rechunkWhile fuel (cur ++ (c :: cs).take t) ((c :: cs).drop t) file := by
        simp only [rechunkWhile, List.isEmpty_cons, Bool.false_eq_true, if_false, hcur, if_true,
          htk]
      by_cases h8 : (cur ++ (c :: cs).take t).length = 8
      · obtain ⟨full, rest, hr, hrest, hfull, hflat⟩ :=
          ih [] ((c :: cs).drop t) (writeLine file (cur ++ (c :: cs).take t)) (by simp) hdrop
        refine ⟨(cur ++ (c :: cs).take t) :: full, rest, ?_, hrest, ?_, ?_⟩
        · rw [hstep, if_pos h8, hr]
          simp [writeLine]
        · intro l hl
          rcases List.mem_cons.1 hl with rfl | hl
          · exact h8
          · exact hfull l hl
        · simp only [List.nil_append] at hflat
          rw [List.flatten_cons, List.append_assoc, hflat, List.append_assoc,
            List.take_append_drop]
      · obtain ⟨full, rest, hr, hrest, hfull, hflat⟩ :=
          ih (cur ++ (c :: cs).take t) ((c :: cs).drop t) file (by omega) hdrop
        refine ⟨full, rest, ?_, hrest, hfull, ?_⟩
        · rw [hstep, if_neg h8, hr]
        · rw [hflat, List.append_assoc, List.take_append_drop]

/-- The loop over the segments of a packet ends, having written full lines only. -/
theorem rechunkSegments_spec : ∀ (packet : List String) (cur : List Char) (file : List String),
    cur.length < 8 →
    ∃ (full : List (List Char)) (rest : List Char),
      rechunkSegments cur packet file = .ok (rest, file ++ full.map String.mk) ∧
      rest.length < 8 ∧ (∀ l ∈ full, l.length = 8) ∧
      full.flatten ++ rest = cur ++ packet.flatMap String.data := by
  intro packet
  induction packet with
  | nil => intro cur file hcur; exact ⟨[], cur, by simp [rechunkSegments], hcur, by simp, by simp⟩
  | cons seg segs ih =>
    intro cur file hcur
    obtain ⟨full1, rest1, hr1, hrest1, hfull1, hflat1⟩ :=
      rechunkWhile_spec (seg.length + 1) cur seg.data file hcur
        (show seg.data.length < seg.data.length + 1 by omega)
    obtain ⟨full2, rest2, hr2, hrest2, hfull2, hflat2⟩ :=
      ih rest1 (file ++ full1.map String.mk) hrest1
    refine ⟨full1 ++ full2, rest2, ?_, hrest2, ?_, ?_⟩
    · simp only [rechunkSegments, hr1, bind, Except.bind, hr2, List.map_append,
        List.append_assoc]
    · intro l hl
      rcases List.mem_append.1 hl with hl | hl
      · exact hfull1 l hl
      · exact hfull2 l hl
    · rw [List.flatten_append, List.append_assoc, hflat2, ← List.append_assoc, hflat1,
        List.flatMap_cons, List.append_assoc]

/-- The lines one packet is written as: the full lines, then the rest of the buffer if any. -/
theorem writePacket_spec (packet : List String) (file : List String) :
    ∃ (full : List (List Char)) (rest : List Char),
      writePacket packet file =
        .ok (file ++ (full ++ if rest.isEmpty then [] else [rest]).map String.mk) ∧
      rest.length < 8 ∧ (∀ l ∈ full, l.length = 8) ∧
      full.flatten ++ rest = packet.flatMap String.data := by
  obtain ⟨full, rest, hr, hrest, hfull, hflat⟩ := rechunkSegments_spec packet [] file (by simp)
  refine ⟨full, rest, ?_, hrest, hfull, by simpa using hflat⟩
  cases rest with
  | nil => simp [writePacket, hr, bind, Except.bind, pure, Except.pure]
  | cons c cs => simp [writePacket, hr, bind, Except.bind, pure, Except.pure, writeLine]

theorem length_flatten_of_forall_eq {l : List (List Char)} {k : Nat}
    (h : ∀ x ∈ l, x.length = k) : l.flatten.length = l.length * k := by
  induction l with
  | nil => simp
  | cons a as ih =>
    rw [List.flatten_cons, List.length_append, h a (by simp),
      ih (fun x hx => h x (by simp [hx])), List.length_cons]
    ring

theorem length_flatMap_data (packet : List String) :
    (packet.flatMap String.data).length = (packet.map String.length).sum := by
  induction packet with
  | nil => rfl
  | cons s ss ih =>
    have hs : s.length = s.data.length := rfl
    rw [List.flatMap_cons, List.length_append, ih, List.map_cons, List.sum_cons, hs]

/-! ## Facts about the loops -/

/-- A loop whose body always succeeds applies the body once per pass. -/
theorem forLoop_ok {σ : Type} (cond : Int → Bool) (h : σ → σ) :
    ∀ (fuel : Nat) (i : Int) (st : σ),
      forLoop cond (fun st => .ok (h st)) fuel i st =
        match loopCount cond fuel i with
        | some k => .ok (h^[k] st)
        | none => .error .nonTermination := by
  intro fuel
  induction fuel with
  | zero => intro i st; rfl
  | succ fuel ih =>
    intro i st
    by_cases hc : cond i = true
    · simp only [forLoop, loopCount, hc, if_true, bind, Except.bind, ih]
      cases loopCount cond fuel (wrap32 (i + 1)) with
      | none => rfl
      | some k => simp [Function.iterate_succ_apply]
    · simp [forLoop, loopCount, hc]

/-- The number of passes when the condition holds below `N` and fails at `N`. -/
theorem loopCount_eq (cond : Int → Bool) (N : Nat) (hN : N < 2 ^ 31)
    (hlt : ∀ i : Nat, i < N → cond (i : Int) = true) (hge : cond (N : Int) = false) :
    ∀ (fuel i : Nat), i ≤ N → N - i < fuel → loopCount cond fuel (i : Int) = some (N - i) := by
  intro fuel
  induction fuel with
  | zero => intro i _ h; omega
  | succ fuel ih =>
    intro i hi hf
    by_cases hiN : i = N
    · subst hiN
      simp [loopCount, hge]
    · have hw : wrap32 ((i : Int) + 1) = ((i + 1 : Nat) : Int) := by
        rw [wrap32_eq_self (by omega) (by omega)]
        omega
      have := ih (i + 1) (by omega) (by omega)
      have he : N - (i + 1) + 1 = N - i := by omega
      simp only [loopCount, hlt i (by omega), if_true, hw, this, Option.map_some', he]

/-- A loop `for (int i = 0; i < bound; ++i)` makes `bound` passes, none when `bound` is
negative. -/
theorem loopCount_lt (bound : Int) (h : bound < 2 ^ 31) :
    loopCount (fun i => decide (i < bound)) loopFuel 0 = some bound.toNat := by
  have := loopCount_eq (fun i => decide (i < bound)) bound.toNat (by omega)
    (fun i hi => by simp only [decide_eq_true_eq]; omega)
    (by simp only [decide_eq_false_iff_not]; omega) loopFuel 0 (by omega)
    (by unfold loopFuel; omega)
  simpa using this

theorem iterate_append_lines (L : List String) (g : Int → Int) (n : Nat)
    (st : List String × Int) :
    (fun st : List String × Int => (st.1 ++ L, g st.2))^[n] st =
      (st.1 ++ (List.replicate n L).flatten, g^[n] st.2) := by
  induction n generalizing st with
  | zero => simp
  | succ n ih =>
    rw [Function.iterate_succ_apply, ih]
    simp [List.replicate_succ, Function.iterate_succ_apply]

theorem iterate_append_line (x : String) (n : Nat) (file : List String) :
    (fun file : List String => file ++ [x])^[n] file = file ++ List.replicate n x := by
  induction n generalizing file with
  | zero => simp
  | succ n ih =>
    rw [Function.iterate_succ_apply, ih]
    simp [List.replicate_succ]

/-- A loop that writes one filler line per pass. -/
theorem forLoop_filler (cond : Int → Bool) (k : Nat) (h : loopCount cond loopFuel 0 = some k)
    (file : List String) :
    forLoop cond (fun file => pure (file ++ ["07070707"])) loopFuel 0 file =
      .ok (file ++ List.replicate k "07070707") := by
  have := forLoop_ok cond (fun file : List String => file ++ ["07070707"]) loopFuel 0 file
  rw [h] at this
  simpa [iterate_append_line, pure, Except.pure] using this

/-! ## Facts about `writePacketsToFile` -/

theorem chunk8_nil : ∀ fuel : Nat, chunk8 fuel [] = []
  | 0 => rfl
  | _ + 1 => rfl

theorem chunk8_spec : ∀ (full : List (List Char)) (rest : List Char) (fuel : Nat),
    (∀ l ∈ full, l.length = 8) → rest.length < 8 → (full.flatten ++ rest).length ≤ fuel →
    chunk8 fuel (full.flatten ++ rest) =
      (full ++ if rest.isEmpty then [] else [rest]).map String.mk := by
  intro full
  induction full with
  | nil =>
    intro rest fuel _ hrest hfuel
    cases rest with
    | nil => simp [chunk8_nil]
    | cons c cs =>
      cases fuel with
      | zero => simp at hfuel
      | succ fuel =>
        have ht : (c :: cs).take 8 = c :: cs := List.take_of_length_le (by omega)
        have hd : (c :: cs).drop 8 = [] := List.drop_of_length_le (by omega)
        simp only [List.flatten_nil, List.nil_append, chunk8, List.isEmpty_cons,
          Bool.false_eq_true, if_false, ht, hd, chunk8_nil, List.map_cons, List.map_nil]
  | cons a as ih =>
    intro rest fuel hfull hrest hfuel
    have ha : a.length = 8 := hfull a (by simp)
    cases fuel with
    | zero => simp only [List.flatten_cons, List.length_append, ha] at hfuel; omega
    | succ fuel =>
      have hne : (a ++ (as.flatten ++ rest)).isEmpty = false := by
        cases a with
        | nil => simp at ha
        | cons _ _ => rfl
      have ht : (a ++ (as.flatten ++ rest)).take 8 = a := by
        rw [← ha, List.take_left]
      have hd : (a ++ (as.flatten ++ rest)).drop 8 = as.flatten ++ rest := by
        rw [← ha, List.drop_left]
      have hi := ih rest fuel (fun l hl => hfull l (by simp [hl])) hrest (by
        simp only [List.flatten_cons, List.length_append, ha] at hfuel
        simp only [List.length_append]
        omega)
      simp only [List.flatten_cons, List.append_assoc, chunk8, hne, Bool.false_eq_true,
        if_false, ht, hd, hi, List.cons_append, List.map_cons]

/-- The serializer appends the trace words of the packet to the file. -/
theorem writePacket_eq (packet : List String) (file : List String) :
    writePacket packet file = .ok (file ++ frameWords packet) := by
  obtain ⟨full, rest, hw, hrest, hfull, hflat⟩ := writePacket_spec packet file
  rw [hw, frameWords, ← hflat, chunk8_spec full rest _ hfull hrest (le_refl _)]

theorem intDiv_lt {a b q : Int} (h : intDiv a b = .ok q) (ha1 : -2 ^ 31 ≤ a) (ha2 : a < 2 ^ 31) :
    q < 2 ^ 31 := by
  unfold intDiv at h
  split at h
  · cases h
  · rename_i hc
    have hq : q = a.tdiv b := by cases h; rfl
    have hb0 : b ≠ 0 := fun hb => hc (Or.inl hb)
    have hn : q.natAbs = a.natAbs / b.natAbs := by rw [hq, Int.natAbs_tdiv]; rfl
    by_cases hb1 : b = 1
    · rw [hq, hb1, Int.tdiv_one]; exact ha2
    · by_cases hbm : b = -1
      · have hne : a ≠ -2 ^ 31 := fun ha => hc (Or.inr ⟨ha, hbm⟩)
        have : q = -a := by rw [hq, hbm, Int.tdiv_neg, Int.tdiv_one]
        omega
      · have hb2 : 2 ≤ b.natAbs := by omega
        have : a.natAbs / b.natAbs ≤ a.natAbs / 2 := Nat.div_le_div_left hb2 (by decide)
        omega

theorem toInt_lt (x : Fp) : x.toInt < 2 ^ 31 := by
  cases x with
  | fin a =>
    simp only [Fp.toInt]
    split <;> omega
  | inf s => simp [Fp.toInt]
  | nan => simp [Fp.toInt]

theorem toInt_ge (x : Fp) : -2 ^ 31 ≤ x.toInt := by
  cases x with
  | fin a =>
    simp only [Fp.toInt]
    split <;> omega
  | inf s => simp [Fp.toInt]
  | nan => simp [Fp.toInt]

theorem writeOnePacket_eq (config : EthernetConfig) (packet : List String) (k : Nat)
    (hp : generatePacket config = .ok packet) (hk : interFrameFillerWords config = some k) :
    writeOnePacket config = fun st =>
      .ok (st.1 ++ (frameWords packet ++ List.replicate k "07070707"), wrap32 (st.2 + 1)) := by
  funext st
  have hf := forLoop_filler _ k hk (st.1 ++ frameWords packet)
  simp only [pure, Except.pure] at hf
  simp only [writeOnePacket, hp, bind, Except.bind, writePacket_eq, writeIFGs, pure,
    Except.pure, hf, List.append_assoc]

theorem writeOneBurst_eq (config : EthernetConfig) (packet : List String) (k : Nat)
    (hp : generatePacket config = .ok packet) (hk : interFrameFillerWords config = some k)
    (hb : config.burstSize < 2 ^ 31) :
    writeOneBurst config = fun st =>
      .ok (st.1 ++ burstLines (frameWords packet) config.burstSize.toNat k
          (endOfBurstFillerWords config),
        (fun c => wrap32 (c + 1))^[config.burstSize.toNat] st.2) := by
  funext st
  have h1 := forLoop_ok (fun pkt => decide (pkt < config.burstSize))
    (fun st : List String × Int =>
      (st.1 ++ (frameWords packet ++ List.replicate k "07070707"), wrap32 (st.2 + 1)))
    loopFuel 0 st
  rw [loopCount_lt config.burstSize hb] at h1
  have h2 := forLoop_filler (fun i => decide (i < ifgsNeeded config))
    (ifgsNeeded config).toNat (loopCount_lt _ (toInt_lt _))
  have hit : (fun st : List String × Int =>
      (st.1 ++ (frameWords packet ++ List.replicate k "07070707"),
        wrap32 (st.2 + 1)))^[config.burstSize.toNat] st =
      (st.1 ++ (List.replicate config.burstSize.toNat
          (frameWords packet ++ List.replicate k "07070707")).flatten,
        (fun c => wrap32 (c + 1))^[config.burstSize.toNat] st.2) :=
    iterate_append_lines _ (fun c => wrap32 (c + 1)) _ st
  dsimp only at h1
  rw [hit] at h1
  simp only [pure, Except.pure] at h2
  simp only [writeOneBurst, writeOnePacket_eq config packet k hp hk, h1, bind, Except.bind, h2,
    pure, Except.pure, burstLines, endOfBurstFillerWords, List.append_assoc]

/-- The whole run: the lines of one burst, once per burst. -/
theorem writePacketsToFile_eq (config : EthernetConfig) (packet : List String) (k : Nat)
    (bursts : Int) (ht : totalBursts config = .ok bursts)
    (hp : generatePacket config = .ok packet) (hk : interFrameFillerWords config = some k)
    (hb : config.burstSize < 2 ^ 31) :
    writePacketsToFile config =
      .ok (traceLines bursts.toNat (frameWords packet) config.burstSize.toNat k
          (endOfBurstFillerWords config),
        (fun c => (fun c => wrap32 (c + 1))^[config.burstSize.toNat] c)^[bursts.toNat] 0) := by
  have hlt : bursts < 2 ^ 31 := by
    refine intDiv_lt ht ?_ ?_ <;> (unfold wrap32; omega)
  have h1 := forLoop_ok (fun burst => decide (burst < bursts))
    (fun st : List String × Int =>
      (st.1 ++ burstLines (frameWords packet) config.burstSize.toNat k
          (endOfBurstFillerWords config),
        (fun c => wrap32 (c + 1))^[config.burstSize.toNat] st.2))
    loopFuel 0 ([], 0)
  rw [loopCount_lt bursts hlt] at h1
  have hit : (fun st : List String × Int =>
      (st.1 ++ burstLines (frameWords packet) config.burstSize.toNat k
          (endOfBurstFillerWords config),
        (fun c => wrap32 (c + 1))^[config.burstSize.toNat] st.2))^[bursts.toNat] ([], 0) =
      ([] ++ (List.replicate bursts.toNat (burstLines (frameWords packet)
          config.burstSize.toNat k (endOfBurstFillerWords config))).flatten,
        (fun c => (fun c => wrap32 (c + 1))^[config.burstSize.toNat] c)^[bursts.toNat] 0) :=
    iterate_append_lines _ (fun c => (fun c => wrap32 (c + 1))^[config.burstSize.toNat] c) _
      ([], 0)
  dsimp only at h1
  rw [hit] at h1
  simp only [List.nil_append] at h1
  unfold totalBursts at ht
  simp only [writePacketsToFile, ht, bind, Except.bind, writeOneBurst_eq config packet k hp hk hb,
    h1, traceLines]

/-! ## Facts about the rounding -/

theorem log2Fuel_spec : ∀ (fuel n : Nat), n ≤ fuel → n ≠ 0 →
    2 ^ log2Fuel fuel n ≤ n ∧ n < 2 ^ (log2Fuel fuel n + 1) := by
  intro fuel
  induction fuel with
  | zero => intro n h hn; omega
  | succ fuel ih =>
    intro n h hn
    unfold log2Fuel
    by_cases h2 : 2 ≤ n
    · obtain ⟨h3, h4⟩ := ih (n / 2) (by omega) (by omega)
      rw [if_pos h2]
      rw [pow_succ] at h4 ⊢
      rw [pow_succ]
      constructor <;> omega
    · rw [if_neg h2]
      constructor <;> simp <;> omega

theorem ilog2_spec {n : Nat} (hn : n ≠ 0) : 2 ^ ilog2 n ≤ n ∧ n < 2 ^ (ilog2 n + 1) :=
  log2Fuel_spec n n (le_refl n) hn

theorem two_zpow_pos (e : Int) : (0 : ℚ) < 2 ^ e := zpow_pos (by norm_num) e

/-- The binade of a nonzero rational brackets its magnitude. -/
theorem binade_spec {x : ℚ} (hx : x ≠ 0) :
    (2 : ℚ) ^ binade x ≤ |x| ∧ |x| < (2 : ℚ) ^ (binade x + 1) := by
  have hn : x.num.natAbs ≠ 0 := by
    simpa [Int.natAbs_eq_zero] using hx
  have hd : x.den ≠ 0 := x.den_nz
  obtain ⟨hn1, hn2⟩ := ilog2_spec hn
  obtain ⟨hd1, hd2⟩ := ilog2_spec hd
  have hdpos : (0 : ℚ) < x.den := by exact_mod_cast Nat.pos_of_ne_zero hd
  have habs : |x| = (x.num.natAbs : ℚ) / x.den := by
    conv_lhs => rw [← Rat.num_div_den x]
    rw [abs_div, Nat.cast_natAbs, Int.cast_abs]
    congr 1
    exact abs_of_pos hdpos
  have qn1 : (2 : ℚ) ^ (ilog2 x.num.natAbs : Int) ≤ (x.num.natAbs : ℚ) := by
    rw [zpow_natCast]; exact_mod_cast hn1
  have qn2 : (x.num.natAbs : ℚ) < (2 : ℚ) ^ ((ilog2 x.num.natAbs : Int) + 1) := by
    have : ((ilog2 x.num.natAbs : Int) + 1) = ((ilog2 x.num.natAbs + 1 : Nat) : Int) := by
      push_cast; rfl
    rw [this, zpow_natCast]; exact_mod_cast hn2
  have qd1 : (2 : ℚ) ^ (ilog2 x.den : Int) ≤ (x.den : ℚ) := by
    rw [zpow_natCast]; exact_mod_cast hd1
  have qd2 : (x.den : ℚ) < (2 : ℚ) ^ ((ilog2 x.den : Int) + 1) := by
    have : ((ilog2 x.den : Int) + 1) = ((ilog2 x.den + 1 : Nat) : Int) := by
      push_cast; rfl
    rw [this, zpow_natCast]; exact_mod_cast hd2
  have h2 : (2 : ℚ) ≠ 0 := by norm_num
  have hup : |x| < (2 : ℚ) ^ ((ilog2 x.num.natAbs : Int) - (ilog2 x.den : Int) + 1) := by
    rw [habs, div_lt_iff₀ hdpos]
    calc (x.num.natAbs : ℚ) < (2 : ℚ) ^ ((ilog2 x.num.natAbs : Int) + 1) := qn2
      _ = (2 : ℚ) ^ ((ilog2 x.num.natAbs : Int) - (ilog2 x.den : Int) + 1) *
            (2 : ℚ) ^ (ilog2 x.den : Int) := by
        rw [← zpow_add₀ h2]; congr 1; ring
      _ ≤ (2 : ℚ) ^ ((ilog2 x.num.natAbs : Int) - (ilog2 x.den : Int) + 1) * x.den :=
        mul_le_mul_of_nonneg_left qd1 (le_of_lt (two_zpow_pos _))
  have hlo : (2 : ℚ) ^ ((ilog2 x.num.natAbs : Int) - (ilog2 x.den : Int) - 1) ≤ |x| := by
    rw [habs, le_div_iff₀ hdpos]
    calc (2 : ℚ) ^ ((ilog2 x.num.natAbs : Int) - (ilog2 x.den : Int) - 1) * x.den
        ≤ (2 : ℚ) ^ ((ilog2 x.num.natAbs : Int) - (ilog2 x.den : Int) - 1) *
            (2 : ℚ) ^ ((ilog2 x.den : Int) + 1) :=
        mul_le_mul_of_nonneg_left (le_of_lt qd2) (le_of_lt (two_zpow_pos _))
      _ = (2 : ℚ) ^ (ilog2 x.num.natAbs : Int) := by rw [← zpow_add₀ h2]; congr 1; ring
      _ ≤ (x.num.natAbs : ℚ) := qn1
  unfold binade
  simp only
  split_ifs with h
  · exact ⟨h, hup⟩
  · refine ⟨hlo, ?_⟩
    rw [sub_add_cancel]
    exact lt_of_not_le h

theorem roundHalfEven_ge (x : ℚ) : ⌊x⌋ ≤ roundHalfEven x := by
  unfold roundHalfEven
  split_ifs <;> omega

theorem roundHalfEven_le (x : ℚ) : roundHalfEven x ≤ ⌊x⌋ + 1 := by
  unfold roundHalfEven
  split_ifs <;> omega

theorem roundHalfEven_intCast (z : Int) : roundHalfEven (z : ℚ) = z := by
  unfold roundHalfEven
  simp

theorem roundTo_zero (p : Nat) : roundTo p 0 = 0 := by
  simp [roundTo]

theorem roundTo_nonpos (p : Nat) {x : ℚ} (hx : x ≤ 0) : roundTo p x ≤ 0 := by
  unfold roundTo
  split_ifs with h0
  · exact le_refl _
  · have hneg : x < 0 := lt_of_le_of_ne hx h0
    have hz : x / 2 ^ (binade x - ((p : Int) - 1)) < 0 := div_neg_of_neg_of_pos hneg (two_zpow_pos _)
    have hf : ⌊x / 2 ^ (binade x - ((p : Int) - 1))⌋ < 0 := by
      rw [Int.floor_lt]; exact_mod_cast hz
    have hr := roundHalfEven_le (x / 2 ^ (binade x - ((p : Int) - 1)))
    have hr0 : (roundHalfEven (x / 2 ^ (binade x - ((p : Int) - 1))) : ℚ) ≤ 0 := by
      exact_mod_cast (show roundHalfEven (x / 2 ^ (binade x - ((p : Int) - 1))) ≤ 0 by omega)
    exact mul_nonpos_of_nonpos_of_nonneg hr0 (le_of_lt (two_zpow_pos _))

theorem roundTo_nonneg (p : Nat) {x : ℚ} (hx : 0 ≤ x) : 0 ≤ roundTo p x := by
  unfold roundTo
  split_ifs with h0
  · exact le_refl _
  · have hz : 0 ≤ x / 2 ^ (binade x - ((p : Int) - 1)) := div_nonneg hx (le_of_lt (two_zpow_pos _))
    have hf : 0 ≤ ⌊x / 2 ^ (binade x - ((p : Int) - 1))⌋ := Int.floor_nonneg.2 hz
    have hr := roundHalfEven_ge (x / 2 ^ (binade x - ((p : Int) - 1)))
    have hr0 : (0 : ℚ) ≤ (roundHalfEven (x / 2 ^ (binade x - ((p : Int) - 1))) : ℚ) := by
      exact_mod_cast (show 0 ≤ roundHalfEven (x / 2 ^ (binade x - ((p : Int) - 1))) by omega)
    exact mul_nonneg hr0 (le_of_lt (two_zpow_pos _))

/-- A value with a significand of at most `p` bits is not changed by rounding. -/
theorem roundTo_exact (p : Nat) (m j : Int) (hm : |m| < 2 ^ p) :
    roundTo p ((m : ℚ) * 2 ^ j) = (m : ℚ) * 2 ^ j := by
  have h2 : (2 : ℚ) ≠ 0 := by norm_num
  by_cases hm0 : m = 0
  · simp [hm0, roundTo_zero]
  · have hx : (m : ℚ) * 2 ^ j ≠ 0 :=
      mul_ne_zero (by exact_mod_cast hm0) (ne_of_gt (two_zpow_pos j))
    obtain ⟨hb1, _⟩ := binade_spec hx
    have habs : |(m : ℚ) * 2 ^ j| < (2 : ℚ) ^ ((p : Int) + j) := by
      rw [abs_mul, abs_of_pos (two_zpow_pos j), zpow_add₀ h2, zpow_natCast]
      apply mul_lt_mul_of_pos_right _ (two_zpow_pos j)
      exact_mod_cast hm
    have hlt : binade ((m : ℚ) * 2 ^ j) < (p : Int) + j :=
      (zpow_lt_zpow_iff_right₀ (by norm_num : (1 : ℚ) < 2)).1 (lt_of_le_of_lt hb1 habs)
    obtain ⟨k, hk⟩ : ∃ k : Nat, j = binade ((m : ℚ) * 2 ^ j) - ((p : Int) - 1) + k :=
      ⟨(j - (binade ((m : ℚ) * 2 ^ j) - ((p : Int) - 1))).toNat, by omega⟩
    unfold roundTo
    rw [if_neg hx]
    generalize binade ((m : ℚ) * 2 ^ j) - ((p : Int) - 1) = e at hk
    have hz : (m : ℚ) * 2 ^ j / 2 ^ e = ((m * 2 ^ k : Int) : ℚ) := by
      rw [hk, zpow_add₀ h2, zpow_natCast]
      push_cast
      field_simp
      ring
    rw [hz, roundHalfEven_intCast, hk, zpow_add₀ h2, zpow_natCast]
    push_cast
    ring

/-- Rounding does not cross a power of two. -/
theorem roundTo_le_two_zpow (p : Nat) (hp : 1 ≤ p) {x : ℚ} (j : Int) (h : x ≤ 2 ^ j) :
    roundTo p x ≤ 2 ^ j := by
  have h2 : (2 : ℚ) ≠ 0 := by norm_num
  rcases lt_trichotomy x 0 with hneg | h0 | hpos
  · exact le_trans (roundTo_nonpos p (le_of_lt hneg)) (le_of_lt (two_zpow_pos j))
  · rw [h0, roundTo_zero]; exact le_of_lt (two_zpow_pos j)
  · rcases eq_or_lt_of_le h with heq | hlt
    · have := roundTo_exact p 1 j (by
        have : (1 : Int) < 2 ^ p := by
          calc (1 : Int) < 2 ^ 1 := by norm_num
            _ ≤ 2 ^ p := by exact_mod_cast Nat.pow_le_pow_right (by norm_num) hp
        simpa using this)
      rw [heq]
      simpa using le_of_eq this
    · have hx : x ≠ 0 := ne_of_gt hpos
      obtain ⟨hb1, hb2⟩ := binade_spec hx
      rw [abs_of_pos hpos] at hb1 hb2
      have hbj : binade x + 1 ≤ j := by
        have : binade x < j :=
          (zpow_lt_zpow_iff_right₀ (by norm_num : (1 : ℚ) < 2)).1 (lt_of_le_of_lt hb1 hlt)
        omega
      unfold roundTo
      rw [if_neg hx]
      have hz : x / 2 ^ (binade x - ((p : Int) - 1)) < ((2 ^ p : Int) : ℚ) := by
        rw [div_lt_iff₀ (two_zpow_pos _)]
        calc x < 2 ^ (binade x + 1) := hb2
          _ = ((2 ^ p : Int) : ℚ) * 2 ^ (binade x - ((p : Int) - 1)) := by
            push_cast
            rw [← zpow_natCast, ← zpow_add₀ h2]
            congr 1
            ring
      have hf : ⌊x / 2 ^ (binade x - ((p : Int) - 1))⌋ < 2 ^ p := Int.floor_lt.2 hz
      have hr := roundHalfEven_le (x / 2 ^ (binade x - ((p : Int) - 1)))
      have hr2 : (roundHalfEven (x / 2 ^ (binade x - ((p : Int) - 1))) : ℚ) ≤ ((2 ^ p : Int) : ℚ) := by
        exact_mod_cast (show roundHalfEven (x / 2 ^ (binade x - ((p : Int) - 1))) ≤ 2 ^ p by omega)
      calc (roundHalfEven (x / 2 ^ (binade x - ((p : Int) - 1))) : ℚ) *
            2 ^ (binade x - ((p : Int) - 1))
          ≤ ((2 ^ p : Int) : ℚ) * 2 ^ (binade x - ((p : Int) - 1)) :=
            mul_le_mul_of_nonneg_right hr2 (le_of_lt (two_zpow_pos _))
        _ = 2 ^ (binade x + 1) := by
            push_cast
            rw [← zpow_natCast, ← zpow_add₀ h2]
            congr 1
            ring
        _ ≤ 2 ^ j := zpow_le_zpow_right₀ (by norm_num) hbj

/-! ## Facts about the inter-frame gap loop -/

/-- A loop whose condition fails at some counter value below `2 ^ 31` ends, at the first such
value. -/
theorem loopCount_exists (cond : Int → Bool) (N : Nat) (hN : N < 2 ^ 31)
    (hge : cond (N : Int) = false) :
    ∃ k, k ≤ N ∧ loopCount cond loopFuel 0 = some k := by
  classical
  have hex : ∃ k : Nat, cond (k : Int) = false := ⟨N, hge⟩
  have hle : Nat.find hex ≤ N := Nat.find_min' hex hge
  refine ⟨Nat.find hex, hle, ?_⟩
  have := loopCount_eq cond (Nat.find hex) (by omega)
    (fun i hi => by
      have := Nat.find_min hex hi
      simpa using this)
    (Nat.find_spec hex) loopFuel 0 (by omega) (by unfold loopFuel; omega)
  simpa using this

theorem toFloat_le_two_zpow {x : ℚ} (j : Int) (h : x ≤ 2 ^ j) : toFloat x ≤ 2 ^ j :=
  roundTo_le_two_zpow 24 (by decide) j h

/-- The inter-frame gap loop ends for every `int` value of minNumOfIFGs. -/
theorem interFrameFillerWords_some (config : EthernetConfig) (h : IsInt32 config.minNumOfIFGs) :
    ∃ k, interFrameFillerWords config = some k := by
  have hq : (config.minNumOfIFGs : ℚ) / 4 ≤ 2 ^ (29 : Int) := by
    have h1 : (config.minNumOfIFGs : ℚ) ≤ 2147483648 := by exact_mod_cast le_of_lt h.2
    norm_num
    linarith
  have hbound : toFloat (roundTo 53 ((config.minNumOfIFGs : ℚ) / 4)) ≤ 2 ^ (29 : Int) :=
    toFloat_le_two_zpow 29 (roundTo_le_two_zpow 53 (by decide) 29 hq)
  have hexact : toFloat (((536870912 : Nat) : Int) : ℚ) = 2 ^ (29 : Int) := by
    have := roundTo_exact 24 1 29 (by decide)
    simp only [Int.cast_one, one_mul] at this
    unfold toFloat
    norm_num at this ⊢
    exact this
  obtain ⟨k, _, hk⟩ := loopCount_exists
    (fun ifg => decide (toFloat ifg < toFloat (roundTo 53 ((config.minNumOfIFGs : ℚ) / 4))))
    536870912 (by decide) (by
      simp only [decide_eq_false_iff_not, not_lt, hexact]
      exact hbound)
  exact ⟨k, hk⟩

/-! ## The claims -/

/-- Claim C1.  On every list of segments that are each an even number of hex digits,
calculateCRC32 returns the bit-reflected CRC-32 (initial register 0xFFFFFFFF, polynomial
0xEDB88320, final XOR 0xFFFFFFFF) of the octets the segments decode to, taken in order.  The
segment 313233343536373839 decodes to the ASCII octets of 123456789, and calculateCRC32 returns
0xCBF43926 on it. -/
theorem calculateCRC32_is_crc32 :
    (∀ packet : List String, (∀ s ∈ packet, IsHexText s) →
      calculateCRC32 packet = .ok (crc32 (fieldOctets packet))) ∧
    decodeOctets "313233343536373839".data = "123456789".data.map Char.toNat ∧
    calculateCRC32 ["313233343536373839"] = .ok 0xCBF43926 :=
  ⟨calculateCRC32_hex, by decide, by decide!⟩

/-- The general part of `calculateCRC32_is_crc32` at the segments FB55, 0800 and the empty one. -/
theorem calculateCRC32_is_crc32_witness :
    (∀ s ∈ ["FB55", "0800", ""], IsHexText s) ∧
    calculateCRC32 ["FB55", "0800", ""] = .ok (crc32 [0xFB, 0x55, 0x08, 0x00]) :=
  ⟨by decide, calculateCRC32_is_crc32.1 ["FB55", "0800", ""] (by decide)⟩

theorem generatePacket_in_range (config : EthernetConfig)
    (h1 : 26 ≤ config.maxPacketSize) (h2 : config.maxPacketSize ≤ 1073741849)
    (hd : IsMac config.destAddress) (hs : IsMac config.srcAddress) :
    generatePacket config =
      .ok (frameBody config (2 * (config.maxPacketSize - 26)).toNat ++
        [crcHexStr (crc32 (fieldOctets
          (frameBody config (2 * (config.maxPacketSize - 26)).toNat)))]) :=
  generatePacket_of_nonneg config _ (payload_digits_in_range h1 h2)
    (isHexText_of_isMac hd) (isHexText_of_isMac hs)

theorem frameBody_crc_lt (config : EthernetConfig) (n : Nat) (hn : n % 2 = 0)
    (hd : IsMac config.destAddress) (hs : IsMac config.srcAddress) :
    crc32 (fieldOctets (frameBody config n)) < 2 ^ 32 :=
  crc32_lt _ (fieldOctets_lt _
    (frameBody_isHexText config n hn (isHexText_of_isMac hd) (isHexText_of_isMac hs)))

/-- Claim C2, amended.  For every profile with 26 <= maxPacketSize <= 1073741849 and destAddress
and srcAddress each of exactly 12 hex digits, generatePacket returns a field list whose lengths in
hex digits sum to 2 * maxPacketSize and which decodes to exactly maxPacketSize octets. -/
theorem generatePacket_total_length (config : EthernetConfig)
    (h1 : 26 ≤ config.maxPacketSize) (h2 : config.maxPacketSize ≤ 1073741849)
    (hd : IsMac config.destAddress) (hs : IsMac config.srcAddress) :
    ∃ packet, generatePacket config = .ok packet ∧
      (((packet.map String.length).sum : Nat) : Int) = 2 * config.maxPacketSize ∧
      (((fieldOctets packet).length : Nat) : Int) = config.maxPacketSize := by
  have hc := (crcHexStr_spec (frameBody_crc_lt config (2 * (config.maxPacketSize - 26)).toNat
    (by omega) hd hs)).1
  have e1 := hd.1
  have e2 := hs.1
  refine ⟨_, generatePacket_in_range config h1 h2 hd hs, ?_, ?_⟩
  · generalize crcHexStr _ = fcs at hc
    simp only [frameBody, List.cons_append, List.nil_append, List.map_cons, List.map_nil,
      List.sum_cons, List.sum_nil, hc, e1, e2]
    simp only [String.length, List.length_replicate, List.length_cons, List.length_nil]
    omega
  · generalize crcHexStr _ = fcs at hc
    simp only [String.length] at hc e1 e2
    simp only [fieldOctets, frameBody, List.cons_append, List.nil_append, List.flatMap_cons,
      List.flatMap_nil, List.length_append, decodeOctets_length, hc, e1, e2,
      List.length_replicate, List.length_nil, List.length_cons]
    omega

/-- The size statement at maxPacketSize = 64 with the addresses AABBCCDDEEFF and 112233445566. -/
theorem generatePacket_total_length_witness :
    ∃ packet, generatePacket (sampleConfig 64) = .ok packet ∧
      (((packet.map String.length).sum : Nat) : Int) = 2 * 64 ∧
      (((fieldOctets packet).length : Nat) : Int) = 64 :=
  generatePacket_total_length (sampleConfig 64) (by decide) (by decide) (by decide) (by decide)

/-- Claim C2 as stated fails.  At maxPacketSize = 1073741850 (addresses AABBCCDDEEFF and
112233445566) the payload size is 1073741824, the int product payloadSize * 2 wraps to
-2147483648, and the string constructor throws: no field list is returned. -/
theorem generatePacket_total_length_counterexample :
    ¬ (∀ config : EthernetConfig, 26 ≤ config.maxPacketSize →
        IsMac config.destAddress → IsMac config.srcAddress →
        ∃ packet, generatePacket config = .ok packet ∧
          (((packet.map String.length).sum : Nat) : Int) = 2 * config.maxPacketSize) := by
  intro h
  obtain ⟨packet, hp, _⟩ := h (sampleConfig 1073741850) (by decide) (by decide) (by decide)
  have he : generatePacket (sampleConfig 1073741850) = .error .lengthError := by decide!
  rw [he] at hp
  cases hp

/-- Claim C3, amended.  For every profile with 26 <= maxPacketSize <= 1073741849 and
12-hex-digit MAC addresses, generatePacket returns the five fields preamble+SFD, destination MAC,
source MAC, EtherType, payload followed by a last field of exactly 8 hex digits whose numeric
value is what calculateCRC32 returns on those five fields in that order. -/
theorem generatePacket_crc_field (config : EthernetConfig)
    (h1 : 26 ≤ config.maxPacketSize) (h2 : config.maxPacketSize ≤ 1073741849)
    (hd : IsMac config.destAddress) (hs : IsMac config.srcAddress) :
    ∃ payload fcs crc,
      generatePacket config =
        .ok (["FB555555555555D5", config.destAddress, config.srcAddress, "0800", payload]
          ++ [fcs]) ∧
      calculateCRC32
        ["FB555555555555D5", config.destAddress, config.srcAddress, "0800", payload] = .ok crc ∧
      fcs.length = 8 ∧ (∀ c ∈ fcs.data, isHexDigit c = true) ∧ hexValue fcs.data = crc := by
  have hlt := frameBody_crc_lt config (2 * (config.maxPacketSize - 26)).toNat (by omega) hd hs
  have hspec := crcHexStr_spec hlt
  have hcrc := calculateCRC32_hex (frameBody config (2 * (config.maxPacketSize - 26)).toNat)
    (frameBody_isHexText config _ (by omega) (isHexText_of_isMac hd) (isHexText_of_isMac hs))
  exact ⟨_, _, _, generatePacket_in_range config h1 h2 hd hs, hcrc, hspec.1, hspec.2.1,
    hspec.2.2⟩

/-- The CRC field statement at maxPacketSize = 64 with the addresses AABBCCDDEEFF and
112233445566. -/
theorem generatePacket_crc_field_witness :
    ∃ payload fcs crc,
      generatePacket (sampleConfig 64) =
        .ok (["FB555555555555D5", "AABBCCDDEEFF", "112233445566", "0800", payload] ++ [fcs]) ∧
      calculateCRC32
        ["FB555555555555D5", "AABBCCDDEEFF", "112233445566", "0800", payload] = .ok crc ∧
      fcs.length = 8 ∧ (∀ c ∈ fcs.data, isHexDigit c = true) ∧ hexValue fcs.data = crc :=
  generatePacket_crc_field (sampleConfig 64) (by decide) (by decide) (by decide) (by decide)

/-- Claim C3 as stated fails.  At maxPacketSize = 2147483647 (addresses AABBCCDDEEFF and
112233445566) the int product payloadSize * 2 wraps to -54 and the string constructor throws:
generatePacket returns no field list, hence no CRC field. -/
theorem generatePacket_crc_field_counterexample :
    ¬ (∀ config : EthernetConfig, 26 ≤ config.maxPacketSize →
        IsMac config.destAddress → IsMac config.srcAddress →
        ∃ body fcs crc, generatePacket config = .ok (body ++ [fcs]) ∧
          calculateCRC32 body = .ok crc ∧ fcs.length = 8 ∧ hexValue fcs.data = crc) := by
  intro h
  obtain ⟨body, fcs, crc, hp, _⟩ :=
    h (sampleConfig 2147483647) (by decide) (by decide) (by decide)
  have he : generatePacket (sampleConfig 2147483647) = .error .lengthError := by decide!
  rw [he] at hp
  cases hp

/-- Claim C4, amended.  generatePacket throws std::length_error for maxPacketSize = 25 and for
every maxPacketSize with -1073741798 <= maxPacketSize < 26, whatever the other fields; for
maxPacketSize = 26 and 12-hex-digit MAC addresses it returns a frame whose payload field is the
empty string. -/
theorem generatePacket_size_boundary :
    (∀ config : EthernetConfig, -1073741798 ≤ config.maxPacketSize →
      config.maxPacketSize < 26 → generatePacket config = .error .lengthError) ∧
    (∀ config : EthernetConfig, config.maxPacketSize = 26 →
      IsMac config.destAddress → IsMac config.srcAddress →
      ∃ fcs, generatePacket config =
        .ok ["FB555555555555D5", config.destAddress, config.srcAddress, "0800", "", fcs]) := by
  constructor
  · intro config h1 h2
    apply generatePacket_of_neg
    unfold wrap32
    omega
  · intro config h hd hs
    have hg := generatePacket_in_range config (by omega) (by omega) hd hs
    rw [h] at hg
    exact ⟨_, hg⟩

/-- The boundary statement at maxPacketSize = 25 and at maxPacketSize = 26, with the addresses
AABBCCDDEEFF and 112233445566. -/
theorem generatePacket_size_boundary_witness :
    generatePacket (sampleConfig 25) = .error .lengthError ∧
    ∃ fcs, generatePacket (sampleConfig 26) =
      .ok ["FB555555555555D5", "AABBCCDDEEFF", "112233445566", "0800", "", fcs] :=
  ⟨generatePacket_size_boundary.1 (sampleConfig 25) (by decide) (by decide),
   generatePacket_size_boundary.2 (sampleConfig 26) rfl (by decide) (by decide)⟩

/-- Claim C4 as stated fails.  At maxPacketSize = -1073741799 (below 26; addresses AABBCCDDEEFF
and 112233445566) the payload size is -1073741825, the int product payloadSize * 2 wraps to
2147483646, a payload of that many zeros is built and generatePacket returns a frame. -/
theorem generatePacket_size_boundary_counterexample :
    ¬ (∀ config : EthernetConfig, config.maxPacketSize < 26 →
        ∃ e, generatePacket config = .error e) := by
  intro h
  obtain ⟨e, he⟩ := h (sampleConfig (-1073741799)) (by decide)
  have hok := generatePacket_of_nonneg (sampleConfig (-1073741799)) 2147483646 (by decide)
    (by decide) (by decide)
  rw [hok] at he
  cases he

theorem flatMap_data_map_mk (l : List (List Char)) :
    (l.map String.mk).flatMap String.data = l.flatten := by
  induction l with
  | nil => rfl
  | cons a as ih => simp [List.flatMap_cons, ih]

/-- Claim C6.  For every field list (and whatever the file holds already), the serializer appends
lines whose concatenation in order is the concatenation of the fields in order; every line but
the last has exactly 8 characters, the last line is non-empty with at most 8 characters, and the
number of lines is the total number of characters divided by 8, rounded up. -/
theorem writePacket_lines (packet : List String) (file : List String) :
    ∃ lines : List String, writePacket packet file = .ok (file ++ lines) ∧
      lines.flatMap String.data = packet.flatMap String.data ∧
      (∀ l ∈ lines.dropLast, l.length = 8) ∧
      (∀ l, lines.getLast? = some l → 0 < l.length ∧ l.length ≤ 8) ∧
      lines.length = ((packet.map String.length).sum + 7) / 8 := by
  obtain ⟨full, rest, hw, hrest, hfull, hflat⟩ := writePacket_spec packet file
  have htotal : full.length * 8 + rest.length = (packet.map String.length).sum := by
    rw [← length_flatMap_data, ← hflat, List.length_append, length_flatten_of_forall_eq hfull]
  have hfull2 : ∀ l ∈ full.map String.mk, l.length = 8 := by
    intro l hl
    obtain ⟨x, hx, rfl⟩ := List.mem_map.1 hl
    exact hfull x hx
  cases rest with
  | nil =>
    refine ⟨full.map String.mk, by simpa using hw, ?_, ?_, ?_, ?_⟩
    · rw [flatMap_data_map_mk, ← hflat, List.append_nil]
    · intro l hl
      exact hfull2 l (List.mem_of_mem_dropLast hl)
    · intro l hl
      have := hfull2 l (List.mem_of_getLast?_eq_some hl)
      omega
    · simp only [List.length_nil] at htotal
      rw [List.length_map]
      omega
  | cons c cs =>
    refine ⟨full.map String.mk ++ [String.mk (c :: cs)], by simpa using hw, ?_, ?_, ?_, ?_⟩
    · rw [List.flatMap_append, flatMap_data_map_mk, ← hflat]
      simp [List.flatMap_cons]
    · intro l hl
      rw [List.dropLast_concat] at hl
      exact hfull2 l hl
    · intro l hl
      rw [List.getLast?_concat, Option.some.injEq] at hl
      subst hl
      show 0 < (c :: cs).length ∧ (c :: cs).length ≤ 8
      simp only [List.length_cons] at hrest ⊢
      omega
    · rw [List.length_append, List.length_map, List.length_singleton]
      simp only [List.length_cons] at htotal hrest
      omega

/-- Claim C7.  For the profile lineRate=10, captureSizeMs=1, minNumOfIFGs=12,
destAddress=AABBCCDDEEFF, srcAddress=112233445566, maxPacketSize=64, burstSize=1,
burstPeriodicity=1000 there is one burst (totalBursts is 1) of one frame (the count reported is 1).
The trace is 16 frame words, of which the first is FB555555 and the sixteenth is 70e56884, then
3 lines 07070707, then end-of-burst lines 07070707 only.  The first 15 words decode to 60 octets,
the frame bytes 0..59; their CRC-32 is 0x70E56884, which is also what calculateCRC32 returns on
them, and 70e56884 is that value written as 8 zero-padded hex digits. -/
theorem writePacketsToFile_scenario :
    totalBursts (sampleConfig 64) = .ok 1 ∧
    writePacketsToFile (sampleConfig 64) =
      .ok (["FB555555", "555555D5", "AABBCCDD", "EEFF1122", "33445566", "08000000", "00000000",
            "00000000", "00000000", "00000000", "00000000", "00000000", "00000000", "00000000",
            "00000000", "70e56884"] ++
          List.replicate 3 "07070707" ++
          List.replicate (endOfBurstFillerWords (sampleConfig 64)) "07070707", 1) ∧
    (fieldOctets ["FB555555", "555555D5", "AABBCCDD", "EEFF1122", "33445566", "08000000",
      "00000000", "00000000", "00000000", "00000000", "00000000", "00000000", "00000000",
      "00000000", "00000000"]).length = 60 ∧
    crc32 (fieldOctets ["FB555555", "555555D5", "AABBCCDD", "EEFF1122", "33445566", "08000000",
      "00000000", "00000000", "00000000", "00000000", "00000000", "00000000", "00000000",
      "00000000", "00000000"]) = 0x70E56884 ∧
    calculateCRC32 ["FB555555", "555555D5", "AABBCCDD", "EEFF1122", "33445566", "08000000",
      "00000000", "00000000", "00000000", "00000000", "00000000", "00000000", "00000000",
      "00000000", "00000000"] = .ok 0x70E56884 ∧
    crcHexStr 0x70E56884 = "70e56884" ∧ hexValue "70e56884".data = 0x70E56884 := by
  refine ⟨by decide!, ?_, by decide!, by decide!, by decide!, by decide!, by decide!⟩
  have hw : frameWords ["FB555555555555D5", "AABBCCDDEEFF", "112233445566", "0800",
      "0000000000000000000000000000000000000000000000000000000000000000000000000000",
      "70e56884"] =
      ["FB555555", "555555D5", "AABBCCDD", "EEFF1122", "33445566", "08000000", "00000000",
        "00000000", "00000000", "00000000", "00000000", "00000000", "00000000", "00000000",
        "00000000", "70e56884"] := by decide!
  have h := writePacketsToFile_eq (sampleConfig 64) _ 3 1 (by decide!)
    (show generatePacket (sampleConfig 64) = .ok ["FB555555555555D5", "AABBCCDDEEFF",
      "112233445566", "0800",
      "0000000000000000000000000000000000000000000000000000000000000000000000000000",
      "70e56884"] by decide!) (by decide!) (by decide)
  have hbs : (sampleConfig 64).burstSize.toNat = 1 := by decide
  have h1 : (1 : Int).toNat = 1 := by decide
  rw [h, hw, hbs, h1]
  simp only [traceLines, burstLines, List.replicate_one, List.flatten_cons, List.flatten_nil,
    List.append_nil, Function.iterate_one, List.append_assoc]
  rfl

theorem totalBursts_in_range (config : EthernetConfig) (h1 : 0 < config.captureSizeMs)
    (h2 : config.captureSizeMs ≤ 2147483) (h3 : 0 < config.burstPeriodicity) :
    totalBursts config = .ok (config.captureSizeMs * 1000 / config.burstPeriodicity) := by
  have hw : wrap32 (config.captureSizeMs * 1000) = config.captureSizeMs * 1000 :=
    wrap32_eq_self (by omega) (by omega)
  have hc : ¬ (config.burstPeriodicity = 0 ∨
      (config.captureSizeMs * 1000 = -2 ^ 31 ∧ config.burstPeriodicity = -1)) := by omega
  simp only [totalBursts, intDiv, hw, hc, if_false]
  rw [Int.tdiv_eq_ediv (by omega) (by omega)]

theorem burstsEmitted_of_totalBursts (config : EthernetConfig) (bursts : Int)
    (ht : totalBursts config = .ok bursts) (hlt : bursts < 2 ^ 31) :
    burstsEmitted config = .ok bursts.toNat := by
  simp only [burstsEmitted, ht, bind, Except.bind, loopCount_lt bursts hlt, pure, Except.pure]

/-- Claim C8, amended.  For every profile with 0 < captureSizeMs <= 2147483 and burstPeriodicity
> 0, whatever its line rate and packet size, the loop over the bursts makes
floor(captureSizeMs * 1000 / burstPeriodicity) passes, and when a frame can be built the trace is
that many bursts; captureSizeMs = 1000 and burstPeriodicity = 1000 give 1000 bursts. -/
theorem burstsEmitted_eq_floor :
    (∀ config : EthernetConfig, 0 < config.captureSizeMs → config.captureSizeMs ≤ 2147483 →
      0 < config.burstPeriodicity →
      burstsEmitted config =
        .ok (config.captureSizeMs * 1000 / config.burstPeriodicity).toNat ∧
      ∀ packet interFrame, generatePacket config = .ok packet →
        interFrameFillerWords config = some interFrame → config.burstSize < 2 ^ 31 →
        ∃ count, writePacketsToFile config =
          .ok ((List.replicate (config.captureSizeMs * 1000 / config.burstPeriodicity).toNat
            (burstLines (frameWords packet) config.burstSize.toNat interFrame
              (endOfBurstFillerWords config))).flatten, count)) ∧
    (∀ config : EthernetConfig, config.captureSizeMs = 1000 → config.burstPeriodicity = 1000 →
      burstsEmitted config = .ok 1000) := by
  have main : ∀ config : EthernetConfig, 0 < config.captureSizeMs →
      config.captureSizeMs ≤ 2147483 → 0 < config.burstPeriodicity →
      burstsEmitted config =
        .ok (config.captureSizeMs * 1000 / config.burstPeriodicity).toNat := by
    intro config h1 h2 h3
    have hle : config.captureSizeMs * 1000 / config.burstPeriodicity ≤
        config.captureSizeMs * 1000 := Int.ediv_le_self _ (by omega)
    exact burstsEmitted_of_totalBursts config _ (totalBursts_in_range config h1 h2 h3) (by omega)
  refine ⟨fun config h1 h2 h3 => ⟨main config h1 h2 h3, ?_⟩, ?_⟩
  · intro packet k hp hk hb
    exact ⟨_, writePacketsToFile_eq config packet k _ (totalBursts_in_range config h1 h2 h3)
      hp hk hb⟩
  · intro config h1 h2
    have := main config (by omega) (by omega) (by omega)
    rw [this, h1, h2]
    rfl

/-- The burst count at captureSizeMs = 7 and burstPeriodicity = 3000 (two bursts), and at
captureSizeMs = 1000 and burstPeriodicity = 1000. -/
theorem burstsEmitted_eq_floor_witness :
    burstsEmitted ⟨10, 7, 12, "AABBCCDDEEFF", "112233445566", 64, 1, 3000⟩ = .ok 2 ∧
    burstsEmitted ⟨10, 1000, 12, "AABBCCDDEEFF", "112233445566", 64, 1, 1000⟩ = .ok 1000 :=
  ⟨(burstsEmitted_eq_floor.1 ⟨10, 7, 12, "AABBCCDDEEFF", "112233445566", 64, 1, 3000⟩
      (by decide) (by decide) (by decide)).1,
   burstsEmitted_eq_floor.2 ⟨10, 1000, 12, "AABBCCDDEEFF", "112233445566", 64, 1, 1000⟩ rfl rfl⟩

/-- Claim C8 as stated fails.  At captureSizeMs = 2147484 and burstPeriodicity = 1, both int
values, the int product captureSizeMs * 1000 wraps to -2147483296, totalBursts is negative and the
loop over the bursts makes no pass, where the claim gives 2147484000 bursts. -/
theorem burstsEmitted_eq_floor_counterexample :
    ¬ (∀ config : EthernetConfig, 0 < config.captureSizeMs → 0 < config.burstPeriodicity →
        IsInt32 config.captureSizeMs → IsInt32 config.burstPeriodicity →
        burstsEmitted config =
          .ok (config.captureSizeMs * 1000 / config.burstPeriodicity).toNat) := by
  intro h
  have h1 := h ⟨10, 2147484, 12, "AABBCCDDEEFF", "112233445566", 64, 1, 1⟩
    (by decide) (by decide) (by decide) (by decide)
  have h2 : burstsEmitted ⟨10, 2147484, 12, "AABBCCDDEEFF", "112233445566", 64, 1, 1⟩ = .ok 0 := by
    decide!
  rw [h2] at h1
  have h3 := Except.ok.inj h1
  revert h3
  decide

theorem toFloat_natCast {i : Nat} (h : i < 2 ^ 24) : toFloat (((i : Int) : ℚ)) = (i : ℚ) := by
  have := roundTo_exact 24 (i : Int) 0 (by
    rw [abs_of_nonneg (by omega)]
    exact_mod_cast h)
  simpa [toFloat] using this

theorem quarter_exact {n : Int} (h0 : 0 ≤ n) (h1 : n ≤ 16777216) :
    toFloat (roundTo 53 ((n : ℚ) / 4)) = (n : ℚ) / 4 := by
  have e : (n : ℚ) / 4 = (n : ℚ) * 2 ^ (-2 : Int) := by
    rw [zpow_neg]; norm_num; ring
  have h53 : roundTo 53 ((n : ℚ) / 4) = (n : ℚ) / 4 := by
    rw [e]
    exact roundTo_exact 53 n (-2) (by rw [abs_of_nonneg h0]; omega)
  rw [h53]
  rcases eq_or_lt_of_le h1 with heq | hlt
  · have := roundTo_exact 24 1 22 (by decide)
    rw [heq]
    unfold toFloat
    norm_num at this ⊢
    exact this
  · rw [e]
    exact roundTo_exact 24 n (-2) (by rw [abs_of_nonneg h0]; omega)

/-- Claim C9, amended.  For every minNumOfIFGs from 0 to 16777216, whatever the other profile
fields and whatever the file holds, the inter-frame gap loop appends exactly
ceil(minNumOfIFGs / 4) lines 07070707. -/
theorem writeIFGs_ceil (config : EthernetConfig) (file : List String)
    (h0 : 0 ≤ config.minNumOfIFGs) (h1 : config.minNumOfIFGs ≤ 16777216) :
    writeIFGs config file =
      .ok (file ++ List.replicate ⌈(config.minNumOfIFGs : ℚ) / 4⌉.toNat "07070707") := by
  have hq := quarter_exact h0 h1
  have hc0 : 0 ≤ ⌈(config.minNumOfIFGs : ℚ) / 4⌉ :=
    Int.ceil_nonneg (div_nonneg (by exact_mod_cast h0) (by norm_num))
  have hc1 : ⌈(config.minNumOfIFGs : ℚ) / 4⌉ ≤ 4194304 := by
    rw [Int.ceil_le]
    have : (config.minNumOfIFGs : ℚ) ≤ 16777216 := by exact_mod_cast h1
    push_cast
    linarith
  have hN : ((⌈(config.minNumOfIFGs : ℚ) / 4⌉.toNat : Nat) : Int) =
      ⌈(config.minNumOfIFGs : ℚ) / 4⌉ := Int.toNat_of_nonneg hc0
  have hk := loopCount_eq
    (fun ifg => decide (toFloat ifg < toFloat (roundTo 53 ((config.minNumOfIFGs : ℚ) / 4))))
    ⌈(config.minNumOfIFGs : ℚ) / 4⌉.toNat (by omega)
    (fun i hi => by
      simp only [decide_eq_true_eq, hq]
      rw [toFloat_natCast (by omega)]
      have : (i : Int) < ⌈(config.minNumOfIFGs : ℚ) / 4⌉ := by omega
      exact_mod_cast Int.lt_ceil.1 this)
    (by
      simp only [decide_eq_false_iff_not, not_lt, hq]
      rw [toFloat_natCast (by omega)]
      have := Int.le_ceil ((config.minNumOfIFGs : ℚ) / 4)
      rw [← hN] at this
      exact_mod_cast this)
    loopFuel 0 (by omega) (by unfold loopFuel; omega)
  simp only [Nat.sub_zero, Nat.cast_zero] at hk
  exact forLoop_filler _ _ hk file

/-- The inter-frame gap at minNumOfIFGs = 12 is 3 lines, and at minNumOfIFGs = 13 it is 4
lines. -/
theorem writeIFGs_ceil_witness :
    writeIFGs ⟨10, 1, 12, "AABBCCDDEEFF", "112233445566", 64, 1, 1000⟩ ["70e56884"] =
      .ok (["70e56884"] ++ List.replicate ⌈((12 : Int) : ℚ) / 4⌉.toNat "07070707") ∧
    ⌈((12 : Int) : ℚ) / 4⌉.toNat = 3 ∧
    writeIFGs ⟨10, 1, 13, "AABBCCDDEEFF", "112233445566", 64, 1, 1000⟩ ["70e56884"] =
      .ok (["70e56884"] ++ List.replicate ⌈((13 : Int) : ℚ) / 4⌉.toNat "07070707") ∧
    ⌈((13 : Int) : ℚ) / 4⌉.toNat = 4 :=
  ⟨writeIFGs_ceil ⟨10, 1, 12, "AABBCCDDEEFF", "112233445566", 64, 1, 1000⟩ ["70e56884"]
      (by decide) (by decide), by decide!,
   writeIFGs_ceil ⟨10, 1, 13, "AABBCCDDEEFF", "112233445566", 64, 1, 1000⟩ ["70e56884"]
      (by decide) (by decide), by decide!⟩

/-- Claim C9 as stated fails.  At minNumOfIFGs = 16777217 the quotient 4194304.25 is not a float:
float(minNumOfIFGs / 4.0) is 4194304, the loop appends 4194304 lines, and ceil(16777217 / 4) is
4194305. -/
theorem writeIFGs_ceil_counterexample :
    ¬ (∀ (config : EthernetConfig) (file : List String), 0 ≤ config.minNumOfIFGs →
        writeIFGs config file =
          .ok (file ++ List.replicate ⌈(config.minNumOfIFGs : ℚ) / 4⌉.toNat "07070707")) := by
  intro h
  have h1 := h ⟨10, 1, 16777217, "AABBCCDDEEFF", "112233445566", 64, 1, 1000⟩ [] (by decide)
  have hf : toFloat (roundTo 53 (((16777217 : Int) : ℚ) / 4)) = 4194304 := by decide!
  have hk := loopCount_eq
    (fun ifg => decide (toFloat ifg < toFloat (roundTo 53 (((16777217 : Int) : ℚ) / 4))))
    4194304 (by decide)
    (fun i hi => by
      simp only [decide_eq_true_eq, hf]
      rw [toFloat_natCast (by omega)]
      exact_mod_cast hi)
    (by
      simp only [decide_eq_false_iff_not, not_lt, hf]
      rw [toFloat_natCast (by decide)]
      norm_num)
    loopFuel 0 (by omega) (by unfold loopFuel; omega)
  simp only [Nat.sub_zero, Nat.cast_zero] at hk
  have h2 : writeIFGs ⟨10, 1, 16777217, "AABBCCDDEEFF", "112233445566", 64, 1, 1000⟩ [] =
      .ok ([] ++ List.replicate 4194304 "07070707") := forLoop_filler _ _ hk []
  rw [h2] at h1
  have h3 := congrArg List.length (Except.ok.inj h1)
  have hc : ⌈((16777217 : Int) : ℚ) / 4⌉.toNat = 4194305 := by decide!
  simp only [List.nil_append, List.length_replicate] at h3
  rw [hc] at h3
  omega

/-- Claim C10, the code at lineRate=10, maxPacketSize=64, burstSize=1, burstPeriodicity=1000.
The formula of the claim gives ceil(9999488 / 32) = 312484 filler lines; the code takes the packet
time to be 5.12e-8 (seconds, where the period is in microseconds), finds 312500 and writes 312500
filler lines at the end of the burst. -/
theorem endOfBurstFillerWords_scenario :
    specEndOfBurstFillerWords (sampleConfig 64) = 312484 ∧
    calculatePacketTime (sampleConfig 64) =
      .fin (7737125245533627 / 151115727451828646838272) ∧
    ifgsNeeded (sampleConfig 64) = 312500 ∧
    endOfBurstFillerWords (sampleConfig 64) = 312500 := by
  refine ⟨by decide!, by decide!, by decide!, by decide!⟩

/-! ## Further facts about `calculateCRC32` -/

theorem crcSegments_empty : ∀ (packet : List String) (crc : Nat), (∀ s ∈ packet, s = "") →
    crcSegments crc packet = .ok crc := by
  intro packet
  induction packet with
  | nil => intro crc _; rfl
  | cons s rest ih =>
    intro crc h
    have hs : s = "" := h s (by simp)
    subst hs
    have hr := ih crc (fun t ht => h t (by simp [ht]))
    simp only [crcSegments, crcSegment, bind, Except.bind, hr]

/-- Claim C16.  calculateCRC32 returns 0x00000000 on the empty segment list and on every list
whose segments are all empty strings. -/
theorem calculateCRC32_empty :
    calculateCRC32 [] = .ok 0x00000000 ∧
    ∀ packet : List String, (∀ s ∈ packet, s = "") → calculateCRC32 packet = .ok 0x00000000 := by
  have main : ∀ packet : List String, (∀ s ∈ packet, s = "") →
      calculateCRC32 packet = .ok 0x00000000 := by
    intro packet h
    simp only [calculateCRC32, crcSegments_empty packet _ h, bind, Except.bind, pure, Except.pure]
    rfl
  exact ⟨main [] (by simp), main⟩

/-- The CRC of three empty segments. -/
theorem calculateCRC32_empty_witness :
    (∀ s ∈ ["", "", ""], s = "") ∧ calculateCRC32 ["", "", ""] = .ok 0x00000000 :=
  ⟨by decide, calculateCRC32_empty.2 ["", "", ""] (by decide)⟩

theorem decodeOctets_append : ∀ (a b : List Char), a.length % 2 = 0 →
    decodeOctets (a ++ b) = decodeOctets a ++ decodeOctets b
  | [], b, _ => rfl
  | [_], _, h => by simp at h
  | x :: y :: rest, b, h => by
    have hr : rest.length % 2 = 0 := by simp only [List.length_cons] at h; omega
    have ih := decodeOctets_append rest b hr
    show (16 * hexDigitValue x + hexDigitValue y) :: decodeOctets (rest ++ b) =
      (16 * hexDigitValue x + hexDigitValue y) :: decodeOctets rest ++ decodeOctets b
    rw [ih]
    rfl

theorem decodeOctets_flatMap : ∀ (packet : List String), (∀ s ∈ packet, IsHexText s) →
    decodeOctets (packet.flatMap String.data) = fieldOctets packet := by
  intro packet
  induction packet with
  | nil => intro _; rfl
  | cons s rest ih =>
    intro h
    have hs : s.data.length % 2 = 0 := (h s (by simp)).1
    rw [List.flatMap_cons, decodeOctets_append _ _ hs, ih (fun t ht => h t (by simp [ht]))]
    rfl

theorem isHexText_join (packet : List String) (h : ∀ s ∈ packet, IsHexText s) :
    IsHexText (String.join packet) := by
  have hd : (String.join packet).data = packet.flatMap String.data := by
    rw [String.data_join, List.flatMap]
  constructor
  · show (String.join packet).data.length % 2 = 0
    rw [hd]
    clear hd
    induction packet with
    | nil => rfl
    | cons s rest ih =>
      have hs : s.data.length % 2 = 0 := (h s (by simp)).1
      have hr := ih (fun t ht => h t (by simp [ht]))
      rw [List.flatMap_cons, List.length_append]
      omega
  · intro c hc
    rw [hd] at hc
    obtain ⟨s, hs, hcs⟩ := List.mem_flatMap.1 hc
    exact (h s hs).2 c hcs

/-- Claim C17.  For every list of segments that are each an even number of hex digits,
calculateCRC32 returns on the list what it returns on the single segment made of the segments
put end to end: the result does not depend on where the segment boundaries fall. -/
theorem calculateCRC32_flat (packet : List String) (h : ∀ s ∈ packet, IsHexText s) :
    ∃ crc, calculateCRC32 packet = .ok crc ∧ calculateCRC32 [String.join packet] = .ok crc := by
  refine ⟨_, calculateCRC32_hex packet h, ?_⟩
  have hj := isHexText_join packet h
  rw [calculateCRC32_hex [String.join packet] (by
    intro s hs
    rw [List.mem_singleton.1 hs]
    exact hj)]
  have hd : (String.join packet).data = packet.flatMap String.data := by
    rw [String.data_join, List.flatMap]
  simp only [fieldOctets, List.flatMap_cons, List.flatMap_nil, List.append_nil, hd]
  rw [decodeOctets_flatMap packet h]
  rfl

/-- The fields of a 26-byte frame and their concatenation have the same CRC. -/
theorem calculateCRC32_flat_witness :
    ∃ crc, calculateCRC32 ["FB555555555555D5", "AABBCCDDEEFF", "112233445566", "0800"] =
        .ok crc ∧
      calculateCRC32
        [String.join ["FB555555555555D5", "AABBCCDDEEFF", "112233445566", "0800"]] = .ok crc :=
  calculateCRC32_flat ["FB555555555555D5", "AABBCCDDEEFF", "112233445566", "0800"] (by decide)

theorem specBit_xor (a b : Nat) : specBit (a ^^^ b) = specBit a ^^^ specBit b := by
  unfold specBit
  rw [Nat.xor_div_two, Nat.xor_mod_two_eq]
  generalize a / 2 = x
  generalize b / 2 = y
  rcases Nat.mod_two_eq_zero_or_one a with ha | ha <;>
    rcases Nat.mod_two_eq_zero_or_one b with hb | hb
  · have : (a + b) % 2 = 0 := by omega
    simp [ha, hb, this]
  · have : (a + b) % 2 = 1 := by omega
    simp only [ha, hb, this, if_true]
    simp [Nat.xor_assoc]
  · have : (a + b) % 2 = 1 := by omega
    simp only [ha, hb, this, if_true]
    simp only [Nat.zero_ne_one, if_false]
    rw [Nat.xor_assoc, Nat.xor_comm y, ← Nat.xor_assoc]
  · have : (a + b) % 2 = 0 := by omega
    simp only [ha, hb, this, if_true]
    simp only [Nat.zero_ne_one, if_false]
    have e : x ^^^ 0xEDB88320 ^^^ (y ^^^ 0xEDB88320) = x ^^^ y ^^^ (0xEDB88320 ^^^ 0xEDB88320) := by
      ac_rfl
    rw [e, Nat.xor_self, Nat.xor_zero]

theorem foldl_specBit_xor (l : List Nat) (a b : Nat) :
    l.foldl (fun r _ => specBit r) (a ^^^ b) =
      l.foldl (fun r _ => specBit r) a ^^^ l.foldl (fun r _ => specBit r) b := by
  induction l generalizing a b with
  | nil => rfl
  | cons _ _ ih => simp only [List.foldl_cons, specBit_xor, ih]

theorem specOctet_xor (r1 r2 o1 o2 : Nat) :
    specOctet (r1 ^^^ r2) (o1 ^^^ o2) = specOctet r1 o1 ^^^ specOctet r2 o2 := by
  unfold specOctet
  rw [← foldl_specBit_xor]
  congr 1
  rw [Nat.xor_assoc, Nat.xor_assoc, ← Nat.xor_assoc r2, Nat.xor_comm r2 o1, Nat.xor_assoc o1]

theorem foldl_specOctet_xor : ∀ (a b : List Nat) (r1 r2 : Nat), a.length = b.length →
    (xorOctets a b).foldl specOctet (r1 ^^^ r2) =
      a.foldl specOctet r1 ^^^ b.foldl specOctet r2
  | [], [], _, _, _ => rfl
  | [], _ :: _, _, _, h => by simp at h
  | _ :: _, [], _, _, h => by simp at h
  | x :: xs, y :: ys, r1, r2, h => by
    have hl : xs.length = ys.length := by simpa using h
    simp only [xorOctets, List.zipWith_cons_cons, List.foldl_cons]
    rw [specOctet_xor]
    exact foldl_specOctet_xor xs ys _ _ hl

theorem xorOctets_zeros : ∀ (a : List Nat), xorOctets a (List.replicate a.length 0) = a
  | [] => rfl
  | x :: xs => by
    simp only [xorOctets, List.length_cons, List.replicate_succ, List.zipWith_cons_cons,
      Nat.xor_zero]
    exact congrArg (x :: ·) (xorOctets_zeros xs)

theorem length_xorOctets (a b : List Nat) (h : a.length = b.length) :
    (xorOctets a b).length = a.length := by
  simp [xorOctets, h]

/-- The CRC-32 is affine over GF(2). -/
theorem crc32_affine (a b : List Nat) (h : a.length = b.length) :
    crc32 (xorOctets a b) = crc32 a ^^^ crc32 b ^^^ crc32 (List.replicate a.length 0) := by
  have h1 := foldl_specOctet_xor a b 0xFFFFFFFF 0xFFFFFFFF h
  have h2 := foldl_specOctet_xor (xorOctets a b) (List.replicate a.length 0)
    (0xFFFFFFFF ^^^ 0xFFFFFFFF) 0xFFFFFFFF (by simp [length_xorOctets a b h])
  have hz := xorOctets_zeros (xorOctets a b)
  rw [length_xorOctets a b h] at hz
  rw [hz, h1] at h2
  have h0 : (0xFFFFFFFF ^^^ 0xFFFFFFFF ^^^ 0xFFFFFFFF : Nat) = 0xFFFFFFFF := by decide
  rw [h0] at h2
  unfold crc32
  rw [h2]
  generalize List.foldl specOctet 0xFFFFFFFF a = ra
  generalize List.foldl specOctet 0xFFFFFFFF b = rb
  generalize List.foldl specOctet 0xFFFFFFFF (List.replicate a.length 0) = rz
  have e : ra ^^^ 0xFFFFFFFF ^^^ (rb ^^^ 0xFFFFFFFF) ^^^ (rz ^^^ 0xFFFFFFFF) =
      ra ^^^ rb ^^^ rz ^^^ (0xFFFFFFFF ^^^ 0xFFFFFFFF ^^^ 0xFFFFFFFF) := by
    ac_rfl
  rw [e, h0]

/-- Claim C20.  For segment lists of even-length hex digits that decode to octet sequences A and
B of the same length n, to their octet-wise XOR and to n zero octets, calculateCRC32 returns
values with crc(A xor B) = crc(A) xor crc(B) xor crc(Z_n). -/
theorem calculateCRC32_affine (sa sb sx sz : List String)
    (ha : ∀ s ∈ sa, IsHexText s) (hb : ∀ s ∈ sb, IsHexText s)
    (hx : ∀ s ∈ sx, IsHexText s) (hz : ∀ s ∈ sz, IsHexText s)
    (hlen : (fieldOctets sa).length = (fieldOctets sb).length)
    (hxor : fieldOctets sx = xorOctets (fieldOctets sa) (fieldOctets sb))
    (hzero : fieldOctets sz = List.replicate (fieldOctets sa).length 0) :
    ∃ ca cb cx cz, calculateCRC32 sa = .ok ca ∧ calculateCRC32 sb = .ok cb ∧
      calculateCRC32 sx = .ok cx ∧ calculateCRC32 sz = .ok cz ∧ cx = ca ^^^ cb ^^^ cz := by
  refine ⟨_, _, _, _, calculateCRC32_hex sa ha, calculateCRC32_hex sb hb,
    calculateCRC32_hex sx hx, calculateCRC32_hex sz hz, ?_⟩
  rw [hxor, hzero]
  exact crc32_affine _ _ hlen

/-- The affine relation for A = 01 02 AB, B = 03 55 | 0F given in two segments, A xor B = 02 57
A4 and three zero octets. -/
theorem calculateCRC32_affine_witness :
    ∃ ca cb cx cz, calculateCRC32 ["0102AB"] = .ok ca ∧ calculateCRC32 ["0355", "0f"] = .ok cb ∧
      calculateCRC32 ["0257a4"] = .ok cx ∧ calculateCRC32 ["00", "0000"] = .ok cz ∧
      cx = ca ^^^ cb ^^^ cz :=
  calculateCRC32_affine ["0102AB"] ["0355", "0f"] ["0257a4"] ["00", "0000"]
    (by decide) (by decide) (by decide) (by decide) (by decide) (by decide) (by decide)

/-! ## Further facts about the timing -/

/-- Claim C11, the code at lineRate=10, maxPacketSize=64.  The per-frame time of the claim is
64 * 8 / (10 * 1000) = 0.0512 microseconds; calculatePacketTime returns the double nearest to
512 / 10 ^ 10 = 5.12e-8, the time in seconds, a million times smaller. -/
theorem calculatePacketTime_scenario :
    specPerFrameTimeUs (sampleConfig 64) = 32 / 625 ∧
    calculatePacketTime (sampleConfig 64) = .fin (roundTo 53 (512 / 10 ^ 10)) ∧
    roundTo 53 ((512 : ℚ) / 10 ^ 10) = 7737125245533627 / 151115727451828646838272 ∧
    (7737125245533627 / 151115727451828646838272 : ℚ) * 999999 < 32 / 625 := by
  refine ⟨by decide!, by decide!, by decide!, by decide!⟩

theorem forLoop_false {σ : Type} (cond : Int → Bool) (body : σ → Except Error σ) (fuel : Nat)
    (i : Int) (st : σ) (h : cond i = false) : forLoop cond body (fuel + 1) i st = .ok st := by
  simp [forLoop, h]

/-- Claim C15.  For every profile whose burstPeriodicity is a positive int and whose
captureSizeMs * 1000 is at least 0 and below burstPeriodicity, whatever its other fields,
writePacketsToFile completes, writes no line and reports 0 frames. -/
theorem writePacketsToFile_no_burst (config : EthernetConfig)
    (hp : 0 < config.burstPeriodicity) (hi : IsInt32 config.burstPeriodicity)
    (h0 : 0 ≤ config.captureSizeMs * 1000)
    (h1 : config.captureSizeMs * 1000 < config.burstPeriodicity) :
    totalBursts config = .ok 0 ∧ writePacketsToFile config = .ok ([], 0) := by
  have hi2 := hi.2
  have hw : wrap32 (config.captureSizeMs * 1000) = config.captureSizeMs * 1000 :=
    wrap32_eq_self (by omega) (by omega)
  have hc : ¬ (config.burstPeriodicity = 0 ∨
      (config.captureSizeMs * 1000 = -2 ^ 31 ∧ config.burstPeriodicity = -1)) := by omega
  have hd : (config.captureSizeMs * 1000).tdiv config.burstPeriodicity = 0 := by
    rw [Int.tdiv_eq_ediv h0 (by omega)]
    exact Int.ediv_eq_zero_of_lt h0 h1
  have ht : totalBursts config = .ok 0 := by
    simp only [totalBursts, intDiv, hw, hc, if_false, hd]
  refine ⟨ht, ?_⟩
  unfold totalBursts at ht
  simp only [writePacketsToFile, ht, bind, Except.bind]
  exact forLoop_false _ _ 2147483647 0 _ (by decide)

/-- A capture of 1 ms with a burst period of 1001 microseconds: no burst, even though no frame
could be built for maxPacketSize = 0 and the addresses are empty. -/
theorem writePacketsToFile_no_burst_witness :
    totalBursts ⟨0, 1, 12, "", "", 0, 5, 1001⟩ = .ok 0 ∧
    writePacketsToFile ⟨0, 1, 12, "", "", 0, 5, 1001⟩ = .ok ([], 0) :=
  writePacketsToFile_no_burst ⟨0, 1, 12, "", "", 0, 5, 1001⟩ (by decide) (by decide) (by decide)
    (by decide)

theorem toInt_fin_nonpos {a : ℚ} (h : a ≤ 0) : Fp.toInt (.fin a) ≤ 0 := by
  have ht : (if 0 ≤ a then ⌊a⌋ else ⌈a⌉) ≤ 0 := by
    split
    · rename_i h0
      have : a = 0 := le_antisymm h h0
      simp [this]
    · exact Int.ceil_le.2 (by simpa using h)
  simp only [Fp.toInt]
  generalize (if 0 ≤ a then ⌊a⌋ else ⌈a⌉) = t at ht
  split <;> omega

theorem ifgsNeeded_eq (config : EthernetConfig) :
    ifgsNeeded config = Fp.toInt (Fp.ceil (Fp.div
      (Fp.mul (Fp.mul (remainingTime config) (Fp.ofInt config.lineRate)) (Fp.fin (10 ^ 3)))
      (Fp.fin 32))) := rfl

/-- With a positive line rate a negative remaining time gives a count that is not positive. -/
theorem ifgsNeeded_nonpos (config : EthernetConfig) (hl : 0 < config.lineRate)
    (hneg : (remainingTime config).IsNegative) : ifgsNeeded config ≤ 0 := by
  rw [ifgsNeeded_eq]
  have hlq : (0 : ℚ) < (config.lineRate : ℚ) := by exact_mod_cast hl
  cases hr : remainingTime config with
  | fin r =>
    rw [hr] at hneg
    have hr0 : r < 0 := hneg
    have h1 : roundTo 53 (r * (config.lineRate : ℚ)) ≤ 0 :=
      roundTo_nonpos 53 (le_of_lt (mul_neg_of_neg_of_pos hr0 hlq))
    have h2 : roundTo 53 (roundTo 53 (r * (config.lineRate : ℚ)) * 10 ^ 3) ≤ 0 :=
      roundTo_nonpos 53 (mul_nonpos_of_nonpos_of_nonneg h1 (by norm_num))
    have h3 : roundTo 53 (roundTo 53 (roundTo 53 (r * (config.lineRate : ℚ)) * 10 ^ 3) / 32)
        ≤ 0 := roundTo_nonpos 53 (div_nonpos_of_nonpos_of_nonneg h2 (by norm_num))
    have h32 : ¬ ((32 : ℚ) = 0) := by norm_num
    simp only [Fp.mul, Fp.ofInt, Fp.div, h32, if_false, Fp.ceil]
    apply toInt_fin_nonpos
    have := Int.ceil_le.2 (show roundTo 53 (roundTo 53 (roundTo 53 (r * (config.lineRate : ℚ))
      * 10 ^ 3) / 32) ≤ ((0 : Int) : ℚ) by simpa using h3)
    exact_mod_cast this
  | inf s =>
    rw [hr] at hneg
    have hs : s = true := hneg
    subst hs
    have hl0 : ¬ ((config.lineRate : ℚ) = 0) := ne_of_gt hlq
    have hl1 : ¬ ((config.lineRate : ℚ) < 0) := not_lt.2 (le_of_lt hlq)
    have h1000 : ¬ (((10 : ℚ) ^ 3) = 0) := by norm_num
    have h1001 : ¬ (((10 : ℚ) ^ 3) < 0) := by norm_num
    have h32 : ¬ ((32 : ℚ) < 0) := by norm_num
    simp [Fp.mul, Fp.ofInt, Fp.div, Fp.ceil, Fp.toInt, hl0, hl1, h1000, h1001, h32]
  | nan =>
    rw [hr] at hneg
    exact absurd hneg (by simp [Fp.IsNegative])

theorem iterate_increment : ∀ (n : Nat) (c : Int), IsInt32 c →
    (fun c => wrap32 (c + 1))^[n] c = wrap32 (c + n)
  | 0, c, h => by
    rw [Function.iterate_zero_apply, Nat.cast_zero, Int.add_zero]
    exact (wrap32_eq_self h.1 (by have := h.2; omega)).symm
  | n + 1, c, _ => by
    have hw : IsInt32 (wrap32 (c + 1)) := by
      unfold IsInt32 wrap32
      omega
    rw [Function.iterate_succ_apply, iterate_increment n _ hw]
    unfold wrap32
    push_cast
    omega

/-- The count after `bursts` bursts of `frames` packets each: the number of packets, taken
modulo 2 ^ 32 into the range of int. -/
theorem packetCount_eq (bursts frames : Nat) :
    (fun c => (fun c => wrap32 (c + 1))^[frames] c)^[bursts] 0 =
      wrap32 ((frames * bursts : Nat) : Int) := by
  have h : (fun c : Int => (fun c => wrap32 (c + 1))^[frames] c) =
      (fun c => wrap32 (c + 1))^[frames] := rfl
  rw [h, ← Function.iterate_mul, iterate_increment _ 0 (by decide)]
  simp

/-- Claim C14, amended.  For every profile from which a frame can be built, whose burst count can
be computed, whose burstSize and minNumOfIFGs are int values and whose number of frames,
totalBursts times burstSize, is at most 2147483647, writePacketsToFile completes, the trace holds
the frame words that many times, and the count reported is that number. -/
theorem writePacketsToFile_count (config : EthernetConfig) (packet : List String) (bursts : Int)
    (ht : totalBursts config = .ok bursts) (hp : generatePacket config = .ok packet)
    (hb : IsInt32 config.burstSize) (hi : IsInt32 config.minNumOfIFGs)
    (hfit : bursts.toNat * config.burstSize.toNat ≤ 2147483647) :
    ∃ interFrame, interFrameFillerWords config = some interFrame ∧
      writePacketsToFile config =
        .ok ((List.replicate bursts.toNat
            ((List.replicate config.burstSize.toNat
                (frameWords packet ++ List.replicate interFrame "07070707")).flatten ++
              List.replicate (endOfBurstFillerWords config) "07070707")).flatten,
          ((bursts.toNat * config.burstSize.toNat : Nat) : Int)) := by
  obtain ⟨k, hk⟩ := interFrameFillerWords_some config hi
  refine ⟨k, hk, ?_⟩
  have h := writePacketsToFile_eq config packet k bursts ht hp hk hb.2
  rw [packetCount_eq] at h
  rw [h, wrap32_eq_self (by omega) (by rw [Nat.mul_comm]; exact_mod_cast hfit), Nat.mul_comm]
  rfl

/-- Three bursts of two frames: the count reported is 6. -/
theorem writePacketsToFile_count_witness :
    ∃ interFrame,
      interFrameFillerWords ⟨10, 3, 12, "AABBCCDDEEFF", "112233445566", 26, 2, 1000⟩ =
        some interFrame ∧
      writePacketsToFile ⟨10, 3, 12, "AABBCCDDEEFF", "112233445566", 26, 2, 1000⟩ =
        .ok ((List.replicate (3 : Int).toNat
            ((List.replicate (2 : Int).toNat
                (frameWords ["FB555555555555D5", "AABBCCDDEEFF", "112233445566", "0800", "",
                    "3d7a5052"] ++
                  List.replicate interFrame "07070707")).flatten ++
              List.replicate
                (endOfBurstFillerWords ⟨10, 3, 12, "AABBCCDDEEFF", "112233445566", 26, 2, 1000⟩)
                "07070707")).flatten,
          (((3 : Int).toNat * (2 : Int).toNat : Nat) : Int)) :=
  writePacketsToFile_count ⟨10, 3, 12, "AABBCCDDEEFF", "112233445566", 26, 2, 1000⟩
    ["FB555555555555D5", "AABBCCDDEEFF", "112233445566", "0800", "", "3d7a5052"] 3
    (by decide!) (by decide!) (by decide) (by decide) (by decide)

/-- Claim C14 as stated fails.  With captureSizeMs = 32768, burstPeriodicity = 1000 and burstSize
= 65536 (frames of 26 bytes) there are 32768 bursts of 65536 frames, 2147483648 frames in all;
the int packetCount wraps and the count reported is -2147483648. -/
theorem writePacketsToFile_count_counterexample :
    ¬ (∀ (config : EthernetConfig) (packet : List String) (bursts : Int),
        totalBursts config = .ok bursts → generatePacket config = .ok packet →
        0 < bursts → 0 < config.burstSize → IsInt32 config.burstSize →
        IsInt32 config.minNumOfIFGs →
        ∃ trace, writePacketsToFile config = .ok (trace, bursts * config.burstSize)) := by
  intro h
  have ht : totalBursts ⟨10, 32768, 12, "AABBCCDDEEFF", "112233445566", 26, 65536, 1000⟩ =
      .ok 32768 := by decide!
  have hp : generatePacket ⟨10, 32768, 12, "AABBCCDDEEFF", "112233445566", 26, 65536, 1000⟩ =
      .ok ["FB555555555555D5", "AABBCCDDEEFF", "112233445566", "0800", "", "3d7a5052"] := by
    decide!
  have hk : interFrameFillerWords
      ⟨10, 32768, 12, "AABBCCDDEEFF", "112233445566", 26, 65536, 1000⟩ = some 3 := by decide!
  obtain ⟨trace, h1⟩ := h _ _ _ ht hp (by decide) (by decide) (by decide) (by decide)
  have h2 := writePacketsToFile_eq _ _ 3 _ ht hp hk (by decide)
  rw [packetCount_eq] at h2
  rw [h2] at h1
  have h3 : wrap32 (((65536 : Int).toNat * (32768 : Int).toNat : Nat) : Int) =
      (32768 : Int) * 65536 := congrArg Prod.snd (Except.ok.inj h1)
  exact absurd h3 (by decide)

/-! ## Facts about `calculateCRC32` on text that is not hex text -/

theorem isHexDigit_of_digitValue16 {c : Char} {d : Nat} (h : digitValue16 c = some d) :
    isHexDigit c = true ∧ d < 16 := by
  have hc : Char.ofNat c.toNat = c := Char.ofNat_toNat c
  unfold digitValue16 at h
  generalize hn : c.toNat = n at h hc
  rw [← hc]
  split at h
  · rename_i h1
    obtain ⟨h2, h3⟩ := h1
    injection h with h
    refine ⟨?_, by omega⟩
    interval_cases n <;> decide
  · split at h
    · rename_i h1
      obtain ⟨h2, h3⟩ := h1
      injection h with h
      refine ⟨?_, by omega⟩
      interval_cases n <;> decide
    · split at h
      · rename_i h1
        obtain ⟨h2, h3⟩ := h1
        injection h with h
        refine ⟨?_, by omega⟩
        interval_cases n <;> decide
      · cases h

theorem digitValue16_of_not_hex {c : Char} (h : isHexDigit c = false) : digitValue16 c = none := by
  cases hd : digitValue16 c with
  | none => rfl
  | some d =>
    have := (isHexDigit_of_digitValue16 hd).1
    rw [h] at this
    cases this

theorem length_dropWhile_le (p : Char → Bool) : ∀ l : List Char,
    (l.dropWhile p).length ≤ l.length
  | [] => Nat.le_refl _
  | c :: cs => by
    rw [List.dropWhile_cons]
    split
    · exact Nat.le_succ_of_le (length_dropWhile_le p cs)
    · exact Nat.le_refl _

theorem leadingDigits16_bound : ∀ (l : List Char) (acc : Nat),
    (leadingDigits16 l).foldl (fun acc d => 16 * acc + d) acc + 1 ≤ (acc + 1) * 16 ^ l.length
  | [], acc => by simp [leadingDigits16]
  | c :: cs, acc => by
    have hp : 1 ≤ 16 ^ cs.length := Nat.one_le_pow _ _ (by decide)
    cases hd : digitValue16 c with
    | none =>
      simp only [leadingDigits16, hd, List.foldl_nil, List.length_cons, pow_succ]
      nlinarith
    | some d =>
      have hlt := (isHexDigit_of_digitValue16 hd).2
      have ih := leadingDigits16_bound cs (16 * acc + d)
      simp only [leadingDigits16, hd, List.foldl_cons, List.length_cons, pow_succ]
      calc List.foldl (fun acc d => 16 * acc + d) (16 * acc + d) (leadingDigits16 cs) + 1
          ≤ (16 * acc + d + 1) * 16 ^ cs.length := ih
        _ ≤ (16 * acc + 16) * 16 ^ cs.length := Nat.mul_le_mul_right _ (by omega)
        _ = (acc + 1) * (16 ^ cs.length * 16) := by ring

/-- On a text of at most two characters `std::stoi` cannot leave the range of int: its only
failure is `invalid_argument`. -/
theorem stoi_short_error (l : List Char) (hl : l.length ≤ 2) (e : Error)
    (h : stoi l = .error e) : e = .invalidArgument := by
  unfold stoi at h
  simp only at h
  generalize hs3 : (if hasHexPrefix
      (if (l.dropWhile isSpace).head? = some '-' ∨ (l.dropWhile isSpace).head? = some '+' then
        (l.dropWhile isSpace).tail else l.dropWhile isSpace) = true then
      List.drop 2
        (if (l.dropWhile isSpace).head? = some '-' ∨ (l.dropWhile isSpace).head? = some '+' then
          (l.dropWhile isSpace).tail else l.dropWhile isSpace)
      else
        (if (l.dropWhile isSpace).head? = some '-' ∨ (l.dropWhile isSpace).head? = some '+' then
          (l.dropWhile isSpace).tail else l.dropWhile isSpace)) = s3 at h
  have hlen : s3.length ≤ 2 := by
    have h1 := length_dropWhile_le isSpace l
    rw [← hs3]
    split <;> split <;> (try simp only [List.length_drop, List.length_tail]) <;> omega
  have hb := leadingDigits16_bound s3 0
  have hpow : 16 ^ s3.length ≤ 256 := by
    calc 16 ^ s3.length ≤ 16 ^ 2 := Nat.pow_le_pow_right (by decide) hlen
      _ = 256 := by decide
  generalize hm : List.foldl (fun acc d => 16 * acc + d) 0 (leadingDigits16 s3) = m at h hb
  have hm256 : m < 256 := by omega
  split at h
  · injection h with h
    exact h.symm
  · generalize hv : (if decide ((l.dropWhile isSpace).head? = some '-') = true then -(m : Int)
      else (m : Int)) = v at h
    have hv1 : -256 < v ∧ v < 256 := by
      rw [← hv]
      split <;> omega
    split at h
    · rename_i hr
      omega
    · cases h

theorem stoi_startsNoNumber (a : Char) (tl : List Char) (ha : StartsNoNumber a)
    (htl : tl.length ≤ 1) : stoi (a :: tl) = .error .invalidArgument := by
  obtain ⟨h1, h2, h3, h4⟩ := ha
  have hd : (a :: tl).dropWhile isSpace = a :: tl := by
    rw [List.dropWhile_cons, h2]; rfl
  have hp : hasHexPrefix (a :: tl) = false := by
    match tl, htl with
    | [], _ => rfl
    | [_], _ => rfl
  have hl : leadingDigits16 (a :: tl) = [] := by
    simp only [leadingDigits16, digitValue16_of_not_hex h1]
  have hh : ¬ (some a = some '-' ∨ some a = some '+') := by
    simp only [Option.some.injEq]
    exact fun h => h.elim h3 h4
  unfold stoi
  simp only [hd, List.head?_cons, hh, if_false, hp, Bool.false_eq_true, hl, if_true]

theorem crcSegment_error : ∀ (l : List Char) (crc : Nat) (e : Error),
    crcSegment crc l = .error e → e = .invalidArgument
  | [], _, _, h => by simp [crcSegment] at h
  | [a], crc, e, h => by
    cases hs : stoi [a] with
    | error e2 =>
      have := stoi_short_error [a] (by simp) e2 hs
      simp only [crcSegment, hs, bind, Except.bind] at h
      injection h with h
      rw [← h, this]
    | ok v => simp [crcSegment, hs, bind, Except.bind, pure, Except.pure] at h
  | a :: b :: rest, crc, e, h => by
    cases hs : stoi [a, b] with
    | error e2 =>
      have := stoi_short_error [a, b] (by simp) e2 hs
      simp only [crcSegment, hs, bind, Except.bind] at h
      injection h with h
      rw [← h, this]
    | ok v =>
      simp only [crcSegment, hs, bind, Except.bind] at h
      exact crcSegment_error rest _ e h

theorem crcSegment_startsNoNumber : ∀ (l : List Char) (crc : Nat) (i : Nat) (c : Char),
    i % 2 = 0 → l[i]? = some c → StartsNoNumber c →
    crcSegment crc l = .error .invalidArgument
  | [], _, i, c, _, h, _ => by simp at h
  | [a], crc, i, c, hi, h, hc => by
    have h0 : i = 0 := by
      rcases i with _ | i
      · rfl
      · simp at h
    subst h0
    have : a = c := by simpa using h
    subst this
    simp only [crcSegment, stoi_startsNoNumber a [] hc (by simp), bind, Except.bind]
  | a :: b :: rest, crc, i, c, hi, h, hc => by
    rcases i with _ | _ | i
    · have : a = c := by simpa using h
      subst this
      simp only [crcSegment, stoi_startsNoNumber a [b] hc (by simp), bind, Except.bind]
    · omega
    · have h2 : rest[i]? = some c := by simpa using h
      cases hs : stoi [a, b] with
      | error e2 =>
        have := stoi_short_error [a, b] (by simp) e2 hs
        simp only [crcSegment, hs, bind, Except.bind, this]
      | ok v =>
        simp only [crcSegment, hs, bind, Except.bind]
        exact crcSegment_startsNoNumber rest _ i c (by omega) h2 hc

theorem crcSegments_startsNoNumber : ∀ (packet : List String) (crc : Nat),
    (∃ s ∈ packet, ∃ (i : Nat) (c : Char), i % 2 = 0 ∧ s.data[i]? = some c ∧ StartsNoNumber c) →
    crcSegments crc packet = .error .invalidArgument := by
  intro packet
  induction packet with
  | nil => intro crc h; obtain ⟨s, hs, _⟩ := h; simp at hs
  | cons t rest ih =>
    intro crc h
    cases ht : crcSegment crc t.data with
    | error e =>
      have := crcSegment_error t.data crc e ht
      simp only [crcSegments, ht, bind, Except.bind, this]
    | ok v =>
      obtain ⟨s, hs, i, c, hi, hc, hbad⟩ := h
      rcases List.mem_cons.1 hs with rfl | hs
      · rw [crcSegment_startsNoNumber s.data crc i c hi hc hbad] at ht
        cases ht
      · simp only [crcSegments, ht, bind, Except.bind]
        exact ih v ⟨s, hs, i, c, hi, hc, hbad⟩

theorem rechunkWhile_succ (fuel : Nat) (cur seg : List Char) (file : List String) :
    rechunkWhile (fuel + 1) cur seg file =
      if seg.isEmpty then .ok (cur, file)
      else rechunkWhile fuel (rechunkStep cur seg file).1 (rechunkStep cur seg file).2.1
        (rechunkStep cur seg file).2.2 := by
  rw [rechunkWhile]
  unfold rechunkStep
  simp only
  split_ifs <;> rfl

theorem rechunkStep_progress (cur seg : List Char) (file : List String) (hcur : cur.length < 8)
    (hseg : seg ≠ []) :
    (rechunkStep cur seg file).1.length < 8 ∧
    (rechunkStep cur seg file).2.1.length < seg.length := by
  have hpos : 0 < seg.length := List.length_pos.2 hseg
  have ht : 1 ≤ min (8 - cur.length) seg.length := by omega
  generalize htk : min (8 - cur.length) seg.length = t at ht
  have htle : t ≤ seg.length := by rw [← htk]; exact Nat.min_le_right _ _
  have htle8 : t ≤ 8 - cur.length := by rw [← htk]; exact Nat.min_le_left _ _
  have hlen : (cur ++ seg.take t).length = cur.length + t := by
    rw [List.length_append, List.length_take, Nat.min_eq_left htle]
  have hdrop : (seg.drop t).length < seg.length := by
    rw [List.length_drop]; omega
  unfold rechunkStep
  simp only [hcur, if_true, htk]
  split
  · exact ⟨by simp, hdrop⟩
  · refine ⟨?_, hdrop⟩
    rename_i h8
    have h8b : ¬ (cur ++ seg.take t).length = 8 := h8
    show (cur ++ seg.take t).length < 8
    omega

/-- Claim C19.  The inner while loop is the repetition of one pass; a pass that starts with fewer
than 8 characters in the line buffer and a non-empty segment leaves fewer than 8 characters in
the buffer and a strictly shorter segment; so the loop, entered with fewer than 8 characters in
the buffer, ends within as many passes as the segment has characters, again with fewer than 8
characters in the buffer; and the re-chunking of every field list, which starts with an empty
buffer, ends. -/
theorem rechunk_terminates :
    (∀ (fuel : Nat) (cur seg : List Char) (file : List String),
      rechunkWhile (fuel + 1) cur seg file =
        if seg.isEmpty then .ok (cur, file)
        else rechunkWhile fuel (rechunkStep cur seg file).1 (rechunkStep cur seg file).2.1
          (rechunkStep cur seg file).2.2) ∧
    (∀ (cur seg : List Char) (file : List String), cur.length < 8 → seg ≠ [] →
      (rechunkStep cur seg file).1.length < 8 ∧
      (rechunkStep cur seg file).2.1.length < seg.length) ∧
    (∀ (cur seg : List Char) (file : List String), cur.length < 8 →
      ∃ rest file2, rechunkWhile (seg.length + 1) cur seg file = .ok (rest, file2) ∧
        rest.length < 8) ∧
    (∀ (packet : List String) (file : List String),
      ∃ file2, writePacket packet file = .ok file2) := by
  refine ⟨rechunkWhile_succ, rechunkStep_progress, ?_, ?_⟩
  · intro cur seg file hcur
    obtain ⟨full, rest, hr, hrest, _, _⟩ :=
      rechunkWhile_spec (seg.length + 1) cur seg file hcur (Nat.lt_succ_self _)
    exact ⟨rest, _, hr, hrest⟩
  · intro packet file
    exact ⟨_, writePacket_eq packet file⟩

/-- One pass from the buffer FB5555 and the segment 55D5AA: the buffer is flushed and the segment
is down to 4 characters; the loop on that segment ends with D5AA in the buffer. -/
theorem rechunk_terminates_witness :
    ((rechunkStep "FB5555".data "55D5AA".data []).1.length < 8 ∧
      (rechunkStep "FB5555".data "55D5AA".data []).2.1.length < "55D5AA".data.length) ∧
    (∃ rest file2, rechunkWhile ("55D5AA".data.length + 1) "FB5555".data "55D5AA".data [] =
      .ok (rest, file2) ∧ rest.length < 8) ∧
    rechunkStep "FB5555".data "55D5AA".data [] = ([], "D5AA".data, ["FB555555"]) :=
  ⟨rechunk_terminates.2.1 "FB5555".data "55D5AA".data [] (by decide) (by decide),
   rechunk_terminates.2.2.1 "FB5555".data "55D5AA".data [] (by decide), by decide⟩

/-! ## Facts about the lines of a frame -/

/-- The trace words of a field list: full words of 8 characters, then the rest if any. -/
theorem frameWords_spec (packet : List String) :
    ∃ (full : List (List Char)) (rest : List Char),
      frameWords packet = (full ++ if rest.isEmpty then [] else [rest]).map String.mk ∧
      rest.length < 8 ∧ (∀ l ∈ full, l.length = 8) ∧
      full.length * 8 + rest.length = (packet.flatMap String.data).length := by
  obtain ⟨full, rest, _, hrest, hfull, hflat⟩ := writePacket_spec packet []
  refine ⟨full, rest, ?_, hrest, hfull, ?_⟩
  · rw [frameWords, ← hflat, chunk8_spec full rest _ hfull hrest (le_refl _)]
  · rw [← hflat, List.length_append, length_flatten_of_forall_eq hfull]

/-- A frame that generatePacket returns for an int maxPacketSize of at least 26 has
2 * maxPacketSize hex digits. -/
theorem generatePacket_chars (config : EthernetConfig) (packet : List String)
    (h1 : 26 ≤ config.maxPacketSize) (hi : IsInt32 config.maxPacketSize)
    (hd : IsMac config.destAddress) (hs : IsMac config.srcAddress)
    (hp : generatePacket config = .ok packet) :
    (((packet.flatMap String.data).length : Nat) : Int) = 2 * config.maxPacketSize := by
  have h2 : config.maxPacketSize ≤ 1073741849 := by
    by_contra hgt
    have hneg := generatePacket_of_neg config (by
      have := hi.2
      unfold wrap32
      omega)
    rw [hneg] at hp
    cases hp
  have hg := generatePacket_in_range config h1 h2 hd hs
  rw [hg] at hp
  have hpk := (Except.ok.inj hp).symm
  have hc := (crcHexStr_spec (frameBody_crc_lt config (2 * (config.maxPacketSize - 26)).toNat
    (by omega) hd hs)).1
  have e1 := hd.1
  have e2 := hs.1
  rw [hpk]
  generalize crcHexStr _ = fcs at hc
  simp only [String.length] at hc e1 e2
  simp only [frameBody, List.cons_append, List.nil_append, List.flatMap_cons,
    List.flatMap_nil, List.length_append, hc, e1, e2, List.length_replicate, List.length_nil,
    List.length_cons]
  omega

theorem mem_traceLines {l : String} {bursts frames interFrame endOfBurst : Nat}
    {words : List String} (h : l ∈ traceLines bursts words frames interFrame endOfBurst) :
    l ∈ words ∨ l = "07070707" := by
  unfold traceLines burstLines at h
  obtain ⟨b, hb, hl⟩ := List.mem_flatten.1 h
  rw [List.eq_of_mem_replicate hb] at hl
  rcases List.mem_append.1 hl with hl | hl
  · obtain ⟨f, hf, hl⟩ := List.mem_flatten.1 hl
    rw [List.eq_of_mem_replicate hf] at hl
    rcases List.mem_append.1 hl with hl | hl
    · exact Or.inl hl
    · exact Or.inr (List.eq_of_mem_replicate hl)
  · exact Or.inr (List.eq_of_mem_replicate hl)

/-- Claim C18.  For every profile with 12-hex-digit MAC addresses and an int maxPacketSize of at
least 26: a frame is built when maxPacketSize is at most 1073741849, and every frame that is
built is written as exactly ceil(maxPacketSize / 4) lines.  When maxPacketSize is a multiple of
4, every line of the frame, and every line of the whole trace of a completed run, has exactly 8
characters; otherwise the last line of the frame has exactly 2 * (maxPacketSize mod 4)
characters. -/
theorem frame_lines (config : EthernetConfig)
    (h1 : 26 ≤ config.maxPacketSize) (hi : IsInt32 config.maxPacketSize)
    (hd : IsMac config.destAddress) (hs : IsMac config.srcAddress) :
    (config.maxPacketSize ≤ 1073741849 → ∃ packet, generatePacket config = .ok packet) ∧
    ∀ packet, generatePacket config = .ok packet →
      (∀ file, writePacket packet file = .ok (file ++ frameWords packet)) ∧
      (((frameWords packet).length : Nat) : Int) = ⌈(config.maxPacketSize : ℚ) / 4⌉ ∧
      (config.maxPacketSize % 4 = 0 →
        (∀ l ∈ frameWords packet, l.length = 8) ∧
        ∀ (bursts : Int) (interFrame : Nat), totalBursts config = .ok bursts →
          interFrameFillerWords config = some interFrame → config.burstSize < 2 ^ 31 →
          ∃ trace count, writePacketsToFile config = .ok (trace, count) ∧
            ∀ l ∈ trace, l.length = 8) ∧
      (config.maxPacketSize % 4 ≠ 0 →
        ∃ last, (frameWords packet).getLast? = some last ∧
          ((last.length : Nat) : Int) = 2 * (config.maxPacketSize % 4)) := by
  refine ⟨fun h2 => ⟨_, generatePacket_in_range config h1 h2 hd hs⟩, ?_⟩
  intro packet hp
  have hchars := generatePacket_chars config packet h1 hi hd hs hp
  obtain ⟨full, rest, hw, hrest, hfull, htotal⟩ := frameWords_spec packet
  have hfull2 : ∀ l ∈ full.map String.mk, l.length = 8 := by
    intro l hl
    obtain ⟨x, hx, rfl⟩ := List.mem_map.1 hl
    exact hfull x hx
  have hceil : ⌈(config.maxPacketSize : ℚ) / 4⌉ = (config.maxPacketSize + 3) / 4 := by
    rw [Int.ceil_eq_iff]
    have ha : 4 * ((config.maxPacketSize + 3) / 4) - 4 < config.maxPacketSize := by omega
    have hb : config.maxPacketSize ≤ 4 * ((config.maxPacketSize + 3) / 4) := by omega
    have ha2 : (4 * (((config.maxPacketSize + 3) / 4 : Int) : ℚ) - 4) <
        (config.maxPacketSize : ℚ) := by exact_mod_cast ha
    have hb2 : (config.maxPacketSize : ℚ) ≤ 4 * (((config.maxPacketSize + 3) / 4 : Int) : ℚ) := by
      exact_mod_cast hb
    constructor
    · linarith
    · linarith
  have hall8 : config.maxPacketSize % 4 = 0 → ∀ l ∈ frameWords packet, l.length = 8 := by
    intro h4 l hl
    have hr0 : rest.length = 0 := by omega
    have hre : rest = [] := List.length_eq_zero.1 hr0
    rw [hw, hre] at hl
    exact hfull2 l (by simpa using hl)
  refine ⟨fun file => writePacket_eq packet file, ?_, ?_, ?_⟩
  · rw [hceil, hw, List.length_map, List.length_append]
    cases rest with
    | nil => simp only [List.isEmpty_nil, if_true, List.length_nil] at htotal ⊢; omega
    | cons c cs =>
      simp only [List.isEmpty_cons, Bool.false_eq_true, if_false, List.length_cons,
        List.length_nil] at htotal hrest ⊢
      omega
  · intro h4
    refine ⟨hall8 h4, ?_⟩
    intro bursts k ht hk hb
    refine ⟨_, _, writePacketsToFile_eq config packet k bursts ht hp hk hb, ?_⟩
    intro l hl
    rcases mem_traceLines hl with hl | hl
    · exact hall8 h4 l hl
    · rw [hl]; rfl
  · intro h4
    cases rest with
    | nil =>
      simp only [List.length_nil] at htotal
      omega
    | cons c cs =>
      refine ⟨String.mk (c :: cs), ?_, ?_⟩
      · rw [hw]
        simp only [List.isEmpty_cons, Bool.false_eq_true, if_false, List.map_append,
          List.map_cons, List.map_nil, List.getLast?_concat]
      · show (((c :: cs).length : Nat) : Int) = 2 * (config.maxPacketSize % 4)
        simp only [List.length_cons] at htotal hrest ⊢
        omega

/-- A frame of 27 bytes is written as 7 lines, the last one of 6 hex digits. -/
theorem frame_lines_witness :
    ∃ packet, generatePacket (sampleConfig 27) = .ok packet ∧
      (((frameWords packet).length : Nat) : Int) = ⌈((27 : Int) : ℚ) / 4⌉ ∧
      ⌈((27 : Int) : ℚ) / 4⌉ = 7 ∧
      ∃ last, (frameWords packet).getLast? = some last ∧
        ((last.length : Nat) : Int) = 2 * (27 % 4) := by
  obtain ⟨packet, hp⟩ :=
    (frame_lines (sampleConfig 27) (by decide) (by decide) (by decide) (by decide)).1 (by decide)
  have h := (frame_lines (sampleConfig 27) (by decide) (by decide) (by decide) (by decide)).2
    packet hp
  exact ⟨packet, hp, h.2.1, by decide!, h.2.2.2 (by decide)⟩

end EthGen
